/-
Verification of the Felzenszwalb–Huttenlocher segmentation core
(`src/union_find.py`, `src/fh_segmentation.py`) against its specification.

The Python code is shallowly embedded: numpy integer arrays become `List Nat` /
`List Int`, in-place mutation becomes explicit state passing, and the
`np.random.randint` color source becomes an explicit `rng : Nat → Int`
parameter (indexed by the number of calls made so far).  Pixel values and edge
weights are embedded as `Int` (exact integer arithmetic, matching numpy's
default integer dtype for the buffers the claims describe).
-/
import Mathlib

set_option maxRecDepth 10000

/-! ### Python's `sorted`

Python's `sorted` is a stable sort.  It is embedded as an insertion sort
(structurally recursive, so concrete runs reduce inside the kernel): for a
total, transitive comparator a stable sort is extensionally unique, so this
is the same function as CPython's timsort. -/

/-- Insert `a` before the first element `b` with `le a b` (keeping equal
elements after earlier ones — stability). -/
def insertSorted {α : Type} (le : α → α → Bool) (a : α) : List α → List α
  | [] => [a]
  | b :: l => if le a b then a :: b :: l else b :: insertSorted le a l

/-- Python's `sorted(l)` with comparator `le`. -/
def pySort {α : Type} (le : α → α → Bool) : List α → List α
  | [] => []
  | a :: l => insertSorted le a (pySort le l)

/-! ### Union-Find (`src/union_find.py`)

`UnionFind.__init__`: `parent = np.arange(size)`, `rank = np.zeros(size)`,
`num_sets = size`.  `rank` holds integer values throughout, so it is embedded
as `List Nat`; `num_sets` is a Python int, embedded as `Int`. -/

structure UnionFind where
  parent : List Nat
  rank : List Nat
  num_sets : Int
deriving Repr, DecidableEq

namespace UnionFind

/-- `UnionFind(size)`: `size` singleton components. -/
def init (size : Nat) : UnionFind :=
  { parent := List.range size
    rank := List.replicate size 0
    num_sets := (size : Int) }

/-- The recursion of `find` on the parent chain, with path compression
(`self.parent[i] = self.find(self.parent[i])`).  Python's recursion has no
fuel; the embedding uses a fuel argument, and we prove that fuel
`parent.length` always suffices on well-formed states. -/
def findAux : Nat → List Nat → Nat → Nat × List Nat
  | 0, p, i => (i, p)
  | fuel+1, p, i =>
    let pi := p.getD i i
    if pi = i then (i, p)
    else
      let r := findAux fuel p pi
      (r.1, r.2.set i r.1)

/-- `find(i)`: root of `i`, with path compression.  Returns the root together
with the mutated structure. -/
def find (uf : UnionFind) (i : Nat) : Nat × UnionFind :=
  let r := findAux uf.parent.length uf.parent i
  (r.1, { uf with parent := r.2 })

/-- `union(i, j)`: union by rank.  The second component of the result is the
Python return value of the method: `union` has no `return` statement, so it
returns `None` on every path. -/
def union (uf : UnionFind) (i j : Nat) : UnionFind × Option Nat :=
  let fi := uf.find i
  let root_i := fi.1
  let fj := fi.2.find j
  let root_j := fj.1
  let uf2 := fj.2
  if root_i ≠ root_j then
    if uf2.rank.getD root_i 0 < uf2.rank.getD root_j 0 then
      ({ uf2 with parent := uf2.parent.set root_i root_j
                  num_sets := uf2.num_sets - 1 }, none)
    else if uf2.rank.getD root_i 0 > uf2.rank.getD root_j 0 then
      ({ uf2 with parent := uf2.parent.set root_j root_i
                  num_sets := uf2.num_sets - 1 }, none)
    else
      ({ uf2 with parent := uf2.parent.set root_j root_i
                  rank := uf2.rank.set root_i (uf2.rank.getD root_i 0 + 1)
                  num_sets := uf2.num_sets - 1 }, none)
  else
    (uf2, none)

/-- numpy 1-D integer indexing: an index `i` into an array of length `n` is
valid iff `-n ≤ i < n`; negative indices address from the end. -/
def npIndex (n : Nat) (i : Int) : Option Nat :=
  if 0 ≤ i ∧ i < (n : Int) then some i.toNat
  else if -(n : Int) ≤ i ∧ i < 0 then some (((n : Int) + i).toNat)
  else none

/-- `find(i)` as called with an arbitrary Python integer argument: the initial
access `self.parent[i]` applies numpy indexing, raising `IndexError`
(embedded as `none`) iff `i` is outside `[-size, size)`.  All recursive
arguments are in-range parent values, so only the initial access can fail. -/
def findE (uf : UnionFind) (i : Int) : Option (Nat × UnionFind) :=
  match npIndex uf.parent.length i with
  | none => none
  | some j => some (uf.find j)

/-- `get_component_sizes()`: resolves `find` for every index (threading the
path-compression mutations left to right, as the Python list comprehension
does), then counts occurrences of each distinct root, ascending by root
(`np.unique` returns sorted unique values). -/
def componentRoots (uf : UnionFind) : List Nat × UnionFind :=
  (List.range uf.parent.length).foldl
    (fun acc i =>
      let r := acc.2.find i
      (acc.1 ++ [r.1], r.2))
    ([], uf)

def get_component_sizes (uf : UnionFind) : List (Nat × Nat) :=
  let roots := (componentRoots uf).1
  (pySort (fun a b => decide (a ≤ b)) roots.dedup).map
    (fun r => (r, roots.count r))

/-- Comparator of `sorted(..., key=lambda x: x[1], reverse=True)`:
compares sizes only; `sorted` is stable, so ties keep input order. -/
def bySizeDesc (a b : Nat × Nat) : Bool := decide (b.2 ≤ a.2)

/-- `get_largest_components(n)`: stable sort of the `(root, size)` pairs by
size descending, truncated to the first `n` entries.  (The Python branch on
`len >= n` returns the first `n` items or all of them, i.e. `take n`.) -/
def get_largest_components (uf : UnionFind) (n : Nat) : List (Nat × Nat) :=
  (pySort bySizeDesc (get_component_sizes uf)).take n

end UnionFind

/-! ### Semantic notions for the union-find proofs -/

namespace UnionFind

/-- Following the parent chain from `i` reaches the root `r`.
(Out-of-range reads behave like `findAux`: `p.getD i i`.) -/
inductive FindsTo (p : List Nat) : Nat → Nat → Prop where
  | root : ∀ i, p.getD i i = i → FindsTo p i i
  | step : ∀ i r, p.getD i i ≠ i → FindsTo p (p.getD i i) r → FindsTo p i r

/-- Chain-following without path compression, fuel-bounded. -/
def rootAux : Nat → List Nat → Nat → Nat
  | 0, _, i => i
  | fuel+1, p, i =>
    if p.getD i i = i then i else rootAux fuel p (p.getD i i)

/-- The root of `i` in parent array `p` (fuel `p.length` always suffices on
invariant-preserving states). -/
def rootD (p : List Nat) (i : Nat) : Nat := rootAux p.length p i

/-- The set of root indices of the parent array. -/
def roots (p : List Nat) : Finset Nat :=
  (Finset.range p.length).filter fun i => p.getD i i = i

/-- Structural invariant of the parent/rank arrays: parents in range, ranks
strictly increase towards the root, and every rank is bounded by
`length - #roots` (which bounds every chain's length). -/
structure PInv (p rank : List Nat) : Prop where
  bound : ∀ i, i < p.length → p.getD i i < p.length
  rankLt : ∀ i, i < p.length → p.getD i i ≠ i →
    rank.getD i 0 < rank.getD (p.getD i i) 0
  rankBd : ∀ i, i < p.length → rank.getD i 0 + (roots p).card ≤ p.length

/-- Well-formedness of a union-find state. -/
structure WF (uf : UnionFind) : Prop where
  rankLen : uf.rank.length = uf.parent.length
  pinv : PInv uf.parent uf.rank
  sets : uf.num_sets = ((roots uf.parent).card : Int)

/-- The forests produced by `UnionFind(size)` followed by any sequence of
in-range `union` calls. -/
inductive Reachable (size : Nat) : UnionFind → Prop where
  | init : Reachable size (UnionFind.init size)
  | union : ∀ uf i j, Reachable size uf → i < size → j < size →
      Reachable size (uf.union i j).1

end UnionFind

/-! ### Pixel buffers

A numpy buffer: `height × width` grid, either 2-D (grayscale, `is_color =
false`) or 3-D (`is_color = true`, pixel = list of channel values).  Grayscale
pixels are stored as singleton lists; the scalar value is read with `.headD 0`.
Pixel values are `Int` (exact integer arithmetic). -/

structure Image where
  height : Nat
  width : Nat
  is_color : Bool
  px : Nat → Nat → List Int

instance : Inhabited Image := ⟨⟨0, 0, false, fun _ _ => []⟩⟩

/-- Build a grayscale image from a rectangular list of rows
(`height = rows.length`, `width = length of first row`). -/
def Image.ofGray (rows : List (List Int)) : Image :=
  { height := rows.length
    width := (rows.headD []).length
    is_color := false
    px := fun y x => [(rows.getD y []).getD x 0] }

/-- The squared color difference of two adjacent pixels:
`np.sum((a - b)**2)` for 3-D buffers, `(a - b)**2` for 2-D buffers. -/
def pixdiff (img : Image) (y x y' x' : Nat) : Int :=
  if img.is_color then
    (List.zipWith (fun a b => (a - b) ^ 2) (img.px y x) (img.px y' x')).sum
  else
    ((img.px y x).headD 0 - (img.px y' x').headD 0) ^ 2

/-! ### Graph construction (`create_graph`) -/

/-- Python's lexicographic comparison on the edge tuples `(weight, u, v)`,
as used by `sorted(edges)`. -/
def edgeLE (a b : Int × Nat × Nat) : Bool :=
  decide (a.1 < b.1) ||
    (decide (a.1 = b.1) &&
      (decide (a.2.1 < b.2.1) ||
        (decide (a.2.1 = b.2.1) && decide (a.2.2 ≤ b.2.2))))

/-- `create_graph(image)`: one edge per horizontal neighbor pair
(`x < width - 1`) and per vertical neighbor pair (`y < height - 1`), with
`u = y*width + x`; the edge list is returned sorted (`sorted(edges)`). -/
def create_graph (img : Image) : List (Int × Nat × Nat) :=
  let edges := (List.range img.height).flatMap fun y =>
    (List.range img.width).flatMap fun x =>
      (if x < img.width - 1 then
        [(pixdiff img y x y (x + 1), y * img.width + x, y * img.width + (x + 1))]
      else []) ++
      (if y < img.height - 1 then
        [(pixdiff img y x (y + 1) x, y * img.width + x, (y + 1) * img.width + x)]
      else [])
  pySort edgeLE edges

/-! ### Pass 1 — threshold merge -/

/-- One iteration of the first edge loop of `felzenszwalb_huttenlocher`.
State: the union-find structure and the `threshold` array. -/
def pass1Step (k : Int) (st : UnionFind × List Int) (e : Int × Nat × Nat) :
    UnionFind × List Int :=
  let w := e.1
  let fu := st.1.find e.2.1
  let root_u := fu.1
  let fv := fu.2.find e.2.2
  let root_v := fv.1
  let uf2 := fv.2
  if root_u ≠ root_v then
    let MInt := min (st.2.getD root_u 0) (st.2.getD root_v 0)
    if w ≤ MInt then
      let uf3 := (uf2.union root_u root_v).1
      let fr := uf3.find root_u
      (fr.2, st.2.set fr.1 (w + k))
    else (uf2, st.2)
  else (uf2, st.2)

/-- Pass 1: fold the sorted edge list over `pass1Step`, starting from
`UnionFind(num_pixels)` and `threshold = np.full(num_pixels, k)`. -/
def pass1 (k : Int) (edges : List (Int × Nat × Nat)) (n : Nat) :
    UnionFind × List Int :=
  edges.foldl (pass1Step k) (UnionFind.init n, List.replicate n k)

/-! ### Pass 2 — minimum-size cleanup -/

/-- One iteration of the second edge loop.  The sizes compared against
`min_size` are `np.sum(uf.parent == root)`: the number of indices whose
*parent pointer* equals the root (not the number of indices whose root
resolves to it). -/
def pass2Step (min_size : Int) (uf : UnionFind) (e : Int × Nat × Nat) :
    UnionFind :=
  let fu := uf.find e.2.1
  let root_u := fu.1
  let fv := fu.2.find e.2.2
  let root_v := fv.1
  let uf2 := fv.2
  if root_u ≠ root_v then
    let size_u : Int := uf2.parent.count root_u
    let size_v : Int := uf2.parent.count root_v
    if size_u < min_size ∨ size_v < min_size then (uf2.union root_u root_v).1
    else uf2
  else uf2

/-- Pass 2 runs only when `min_size > 0`. -/
def pass2 (min_size : Int) (edges : List (Int × Nat × Nat)) (uf : UnionFind) :
    UnionFind :=
  if min_size > 0 then edges.foldl (pass2Step min_size) uf else uf

/-- The live size of the component of root `r`: the count of all indices whose
root resolves (via `find`) to `r`.  This follows the specification's words
("compute the live size of `ru` and of `rv`", "a component's size is the count
of indices whose root resolves to it"); it is used to compare the
specification's Pass 2 with the implemented one. -/
def liveSize (uf : UnionFind) (r : Nat) : Nat :=
  (List.range uf.parent.length).countP fun i => (uf.find i).1 = r

/-- Modelled from the spec: Pass 2 as the specification states it, i.e. with
the sizes compared against `min_size` being the live component sizes. -/
def pass2SpecStep (min_size : Int) (uf : UnionFind) (e : Int × Nat × Nat) :
    UnionFind :=
  let fu := uf.find e.2.1
  let root_u := fu.1
  let fv := fu.2.find e.2.2
  let root_v := fv.1
  let uf2 := fv.2
  if root_u ≠ root_v then
    let size_u : Int := liveSize uf2 root_u
    let size_v : Int := liveSize uf2 root_v
    if size_u < min_size ∨ size_v < min_size then (uf2.union root_u root_v).1
    else uf2
  else uf2

/-- Modelled from the spec: the whole Pass 2 with live sizes. -/
def pass2Spec (min_size : Int) (edges : List (Int × Nat × Nat))
    (uf : UnionFind) : UnionFind :=
  if min_size > 0 then edges.foldl (pass2SpecStep min_size) uf else uf

/-! ### A concrete 1×14 image on which the two Pass-2 readings disagree

Pixels `[0,0,0,0,0,0,0,3,3,3,5,5,6,6]` with `k = 2` produce, after Pass 1,
three components `{0..6}`, `{7,8,9}` and `{10..13}`.  With `min_size = 7`,
Pass 2 first merges `{7,8,9}` into `{10..13}` (size 3 < 7); the old root 7
keeps children 8 and 9 pointing at it, so at the last edge `(9, 6, 7)` the
parent-pointer count of the right component is 5 although its live size is 7. -/

def cImg : Image := Image.ofGray [[0, 0, 0, 0, 0, 0, 0, 3, 3, 3, 5, 5, 6, 6]]

def cEdges : List (Int × Nat × Nat) := create_graph cImg

def cUf1 : UnionFind := (pass1 2 cEdges 14).1

/-- The Pass-2 state just before its last edge `(9, 6, 7)`. -/
def cUf12 : UnionFind := (cEdges.take 12).foldl (pass2Step 7) cUf1

/-! ### Buffer store and the entry point

To state frame properties ("the input buffer is unchanged"), buffers live in a
store (a list of buffers addressed by index).  `felzenszwalb_huttenlocher`
reads the input buffer, allocates fresh buffers (the smoothed copy and the
zero-initialized output), and writes pixels only into the output buffer. -/

abbrev Store := List Image

/-- Allocation: append a fresh buffer at the end of the store. -/
def Store.alloc (s : Store) (img : Image) : Store := s ++ [img]

def Store.bufAt (s : Store) (bid : Nat) : Image := s.getD bid default

/-- `np.zeros_like(image)`: same shape, all values zero. -/
def zerosLike (img : Image) : Image :=
  { img with px := fun y x => (img.px y x).map fun _ => 0 }

/-- Write one pixel of buffer `bid` in the store. -/
def Store.write (s : Store) (bid y x : Nat) (v : List Int) : Store :=
  s.set bid
    { s.bufAt bid with
      px := fun y' x' => if y' = y ∧ x' = x then v else (s.bufAt bid).px y' x' }

/-- One iteration of the coloring loop: resolve the root of pixel `(y, x)`,
draw a fresh random color if the root is new (`rng` is the random source,
indexed by how many colors were drawn before), and write the color into the
output buffer `oid`.  (In Python the fresh value is `np.random.randint(0,255,3)`
for 3-D buffers and `np.random.randint(0,255)` for 2-D ones; the embedding
uses one `rng : Nat → List Int` stream for both shapes.) -/
def colorStep (rng : Nat → List Int) (oid y x width : Nat)
    (st : UnionFind × List (Nat × List Int) × Store) :
    UnionFind × List (Nat × List Int) × Store :=
  let fr := st.1.find (y * width + x)
  let root := fr.1
  match st.2.1.lookup root with
  | some c => (fr.2, st.2.1, st.2.2.write oid y x c)
  | none =>
      let c := rng st.2.1.length
      (fr.2, st.2.1 ++ [(root, c)], st.2.2.write oid y x c)

/-- `felzenszwalb_huttenlocher(image, k, min_size, sigma)`.

`gauss` is the external Gaussian smoothing collaborator (`skimage.filters.gaussian`,
out of scope; it returns a fresh buffer).  `rng` is the random color source.
The input buffer is `s.bufAt bid`; the result store holds the returned
segmented image in the buffer allocated last.  Returns (store, `num_sets`,
union-find object).  Note the source performs no input validation. -/
def felzenszwalb_huttenlocher (gauss : Image → Int → Image) (s : Store)
    (bid : Nat) (k min_size sigma : Int) (rng : Nat → List Int) :
    Store × Int × UnionFind :=
  let image := s.bufAt bid
  let num_pixels := image.height * image.width
  let smoothed : Image := if sigma > 0 then gauss image sigma else image
  let s1 := s.alloc smoothed
  let edges := create_graph smoothed
  let p1 := pass1 k edges num_pixels
  let uf1 := pass2 min_size edges p1.1
  let oid := s1.length
  let s2 := s1.alloc (zerosLike image)
  let res := (List.range image.height).foldl
    (fun st y =>
      (List.range image.width).foldl
        (fun st x => colorStep rng oid y x image.width st) st)
    (uf1, [], s2)
  (res.2.2, res.1.num_sets, res.1)

/-! ## Proof development -/

namespace UnionFind

/-! ### List helpers -/

theorem getD_set_self {α : Type} {l : List α} {i : Nat} {v d : α}
    (h : i < l.length) : (l.set i v).getD i d = v := by
  simp [List.getD_eq_getElem?_getD, List.getElem?_set_self h]

theorem getD_set_other {α : Type} {l : List α} {i j : Nat} {v d : α}
    (h : i ≠ j) : (l.set i v).getD j d = l.getD j d := by
  simp [List.getD_eq_getElem?_getD, List.getElem?_set_ne h]

theorem getD_of_ge {α : Type} {l : List α} {i : Nat} {d : α}
    (h : l.length ≤ i) : l.getD i d = d := by
  simp [List.getD_eq_getElem?_getD, List.getElem?_eq_none h]

/-! ### `FindsTo` basics -/

/-- The parent chain is deterministic, so `FindsTo` is functional. -/
theorem FindsTo.unique {p : List Nat} {i r r' : Nat}
    (h : FindsTo p i r) (h' : FindsTo p i r') : r = r' := by
  induction h with
  | root i hp =>
    cases h' with
    | root _ _ => rfl
    | step _ _ hne _ => exact absurd hp hne
  | step i r hne _ ih =>
    cases h' with
    | root _ hp => exact absurd hp hne
    | step _ _ _ htail => exact ih htail

theorem FindsTo.isRoot {p : List Nat} {i r : Nat} (h : FindsTo p i r) :
    p.getD r r = r := by
  induction h with
  | root i hp => exact hp
  | step _ _ _ _ ih => exact ih

theorem FindsTo.lt {p rank : List Nat} (hP : PInv p rank) {i r : Nat}
    (h : FindsTo p i r) (hi : i < p.length) : r < p.length := by
  induction h with
  | root _ _ => exact hi
  | step i r hne htail ih => exact ih (hP.bound i hi)

theorem FindsTo.rank_le {p rank : List Nat} (hP : PInv p rank) {i r : Nat}
    (h : FindsTo p i r) (hi : i < p.length) :
    rank.getD i 0 ≤ rank.getD r 0 := by
  induction h with
  | root _ _ => exact Nat.le_refl _
  | step i r hne htail ih =>
    exact Nat.le_trans (Nat.le_of_lt (hP.rankLt i hi hne)) (ih (hP.bound i hi))

theorem FindsTo.rank_lt {p rank : List Nat} (hP : PInv p rank) {i r : Nat}
    (h : FindsTo p i r) (hi : i < p.length) (hne : p.getD i i ≠ i) :
    rank.getD i 0 < rank.getD r 0 := by
  cases h with
  | root _ hp => exact absurd hp hne
  | step i r _ htail =>
    exact Nat.lt_of_lt_of_le (hP.rankLt i hi hne)
      (htail.rank_le hP (hP.bound i hi))

/-- Every in-range index reaches a root (by induction on the rank headroom). -/
theorem findsTo_exists {p rank : List Nat} (hP : PInv p rank) :
    ∀ i, i < p.length → ∃ r, FindsTo p i r := by
  have key : ∀ k i, i < p.length →
      p.length - (roots p).card - rank.getD i 0 ≤ k → ∃ r, FindsTo p i r := by
    intro k
    induction k with
    | zero =>
      intro i hi hk
      refine ⟨i, FindsTo.root i ?_⟩
      by_contra hne
      have h1 := hP.rankLt i hi hne
      have h2 := hP.rankBd (p.getD i i) (hP.bound i hi)
      omega
    | succ k ih =>
      intro i hi hk
      by_cases hroot : p.getD i i = i
      · exact ⟨i, FindsTo.root i hroot⟩
      · have h1 := hP.rankLt i hi hroot
        have h2 := hP.rankBd (p.getD i i) (hP.bound i hi)
        obtain ⟨r, hr⟩ := ih (p.getD i i) (hP.bound i hi) (by omega)
        exact ⟨r, FindsTo.step i r hroot hr⟩
  intro i hi
  exact key (p.length - (roots p).card - rank.getD i 0) i hi (Nat.le_refl _)

/-- `rootAux` computes the `FindsTo` root as soon as the fuel covers the
remaining rank headroom. -/
theorem rootAux_eq {p rank : List Nat} (hP : PInv p rank) :
    ∀ fuel i r, FindsTo p i r → i < p.length →
      p.length - (roots p).card ≤ fuel + rank.getD i 0 →
      rootAux fuel p i = r := by
  intro fuel
  induction fuel with
  | zero =>
    intro i r h hi hfuel
    cases h with
    | root _ _ => rfl
    | step i r hne htail =>
      have h1 := hP.rankLt i hi hne
      have h2 := hP.rankBd (p.getD i i) (hP.bound i hi)
      omega
  | succ fuel ih =>
    intro i r h hi hfuel
    cases h with
    | root _ hp =>
      simp only [rootAux]
      rw [if_pos hp]
    | step i r hne htail =>
      have h1 := hP.rankLt i hi hne
      simp only [rootAux]
      rw [if_neg hne]
      exact ih (p.getD i i) r htail (hP.bound i hi) (by omega)

/-- On an invariant-preserving state, `rootD` agrees with `FindsTo`. -/
theorem rootD_eq {p rank : List Nat} (hP : PInv p rank) {i r : Nat}
    (h : FindsTo p i r) (hi : i < p.length) : rootD p i = r := by
  have hcard : (roots p).card ≤ p.length := by
    have : (roots p).card ≤ (Finset.range p.length).card :=
      Finset.card_le_card (Finset.filter_subset _ _)
    simpa using this
  exact rootAux_eq hP p.length i r h hi (by omega)

theorem findsTo_rootD {p rank : List Nat} (hP : PInv p rank) {i : Nat}
    (hi : i < p.length) : FindsTo p i (rootD p i) := by
  obtain ⟨r, hr⟩ := findsTo_exists hP i hi
  rw [rootD_eq hP hr hi]
  exact hr

/-- Out-of-range indices are their own root, by the `getD` default. -/
theorem rootD_of_ge {p : List Nat} {i : Nat} (hi : p.length ≤ i) :
    rootD p i = i := by
  have hp : p.getD i i = i := getD_of_ge hi
  unfold rootD
  cases hfuel : p.length with
  | zero => rfl
  | succ m =>
    simp only [rootAux]
    rw [if_pos hp]

theorem rootD_isRoot {p rank : List Nat} (hP : PInv p rank) {i : Nat}
    (hi : i < p.length) : p.getD (rootD p i) (rootD p i) = rootD p i :=
  (findsTo_rootD hP hi).isRoot

theorem rootD_lt {p rank : List Nat} (hP : PInv p rank) {i : Nat}
    (hi : i < p.length) : rootD p i < p.length :=
  (findsTo_rootD hP hi).lt hP hi

theorem rootD_of_root {p rank : List Nat} (hP : PInv p rank) {i : Nat}
    (hroot : p.getD i i = i) : rootD p i = i := by
  by_cases hi : i < p.length
  · exact rootD_eq hP (FindsTo.root i hroot) hi
  · exact rootD_of_ge (by omega)

end UnionFind

namespace UnionFind

theorem roots_card_le (p : List Nat) : (roots p).card ≤ p.length := by
  have : (roots p).card ≤ (Finset.range p.length).card :=
    Finset.card_le_card (Finset.filter_subset _ _)
  simpa using this

theorem mem_roots {p : List Nat} {i : Nat} :
    i ∈ roots p ↔ i < p.length ∧ p.getD i i = i := by
  simp [roots]

theorem rootD_step {p rank : List Nat} (hP : PInv p rank) {i : Nat}
    (hi : i < p.length) (hne : p.getD i i ≠ i) :
    rootD p i = rootD p (p.getD i i) := by
  have htail := findsTo_rootD hP (hP.bound i hi)
  exact rootD_eq hP (FindsTo.step i _ hne htail) hi

/-! ### Path compression: rewriting a node's parent to its own root -/

theorem lt_of_not_root {p : List Nat} {x : Nat} (hxr : p.getD x x ≠ x) :
    x < p.length := by
  by_contra h
  exact hxr (getD_of_ge (by omega))

theorem root_ne_of_not_root {p : List Nat} {x r : Nat}
    (hxr : p.getD x x ≠ x) (hfx : FindsTo p x r) : r ≠ x := by
  intro h
  exact hxr (h ▸ hfx.isRoot)

/-- Setting a non-root `x`'s parent to its own root preserves every `FindsTo`
fact. -/
theorem findsTo_compress {p : List Nat} {x r : Nat}
    (hxr : p.getD x x ≠ x) (hfx : FindsTo p x r) :
    ∀ {j s}, FindsTo p j s → FindsTo (p.set x r) j s := by
  have hx : x < p.length := lt_of_not_root hxr
  have hrx : r ≠ x := root_ne_of_not_root hxr hfx
  intro j s h
  induction h with
  | root j hp =>
    have hjx : j ≠ x := fun hjx => hxr (hjx ▸ hp)
    exact FindsTo.root j (by rw [getD_set_other (fun h => hjx h.symm), hp])
  | step j s hne htail ih =>
    by_cases hjx : j = x
    · subst hjx
      have hsr : s = r := FindsTo.unique (FindsTo.step j s hne htail) hfx
      subst hsr
      refine FindsTo.step j s ?_ ?_
      · rw [getD_set_self hx]
        exact hrx
      · rw [getD_set_self hx]
        exact FindsTo.root s (by rw [getD_set_other (Ne.symm hrx), hfx.isRoot])
    · refine FindsTo.step j s ?_ ?_
      · rw [getD_set_other (fun h => hjx h.symm)]
        exact hne
      · rw [getD_set_other (fun h => hjx h.symm)]
        exact ih

theorem roots_compress {p : List Nat} {x r : Nat}
    (hxr : p.getD x x ≠ x) (hfx : FindsTo p x r) :
    roots (p.set x r) = roots p := by
  have hrx : r ≠ x := root_ne_of_not_root hxr hfx
  have hx : x < p.length := lt_of_not_root hxr
  ext j
  simp only [mem_roots, List.length_set]
  by_cases hjx : j = x
  · subst hjx
    rw [getD_set_self hx]
    constructor
    · rintro ⟨-, h⟩
      exact absurd h hrx
    · rintro ⟨-, h⟩
      exact absurd h hxr
  · rw [getD_set_other (fun h => hjx h.symm)]

theorem pinv_compress {p rank : List Nat} (hP : PInv p rank) {x r : Nat}
    (hxr : p.getD x x ≠ x) (hfx : FindsTo p x r) :
    PInv (p.set x r) rank := by
  have hx : x < p.length := lt_of_not_root hxr
  refine ⟨?_, ?_, ?_⟩
  · intro j hj
    rw [List.length_set] at hj
    by_cases hjx : j = x
    · subst hjx
      rw [getD_set_self hx, List.length_set]
      exact hfx.lt hP hx
    · rw [getD_set_other (fun h => hjx h.symm), List.length_set]
      exact hP.bound j hj
  · intro j hj hne
    rw [List.length_set] at hj
    by_cases hjx : j = x
    · subst hjx
      rw [getD_set_self hx]
      exact hfx.rank_lt hP hx hxr
    · rw [getD_set_other (fun h => hjx h.symm)] at hne ⊢
      exact hP.rankLt j hj hne
  · intro j hj
    rw [List.length_set] at hj
    rw [roots_compress hxr hfx, List.length_set]
    exact hP.rankBd j hj

theorem rootD_compress {p rank : List Nat} (hP : PInv p rank) {x r : Nat}
    (hxr : p.getD x x ≠ x) (hfx : FindsTo p x r) :
    ∀ j, rootD (p.set x r) j = rootD p j := by
  intro j
  by_cases hj : j < p.length
  · have h1 := findsTo_compress hxr hfx (findsTo_rootD hP hj)
    have hP' := pinv_compress hP hxr hfx
    have hj' : j < (p.set x r).length := by
      rw [List.length_set]; exact hj
    exact rootD_eq hP' h1 hj'
  · have h1 : rootD p j = j := rootD_of_ge (by omega)
    have h2 : rootD (p.set x r) j = j :=
      rootD_of_ge (by rw [List.length_set]; omega)
    rw [h1, h2]

/-! ### `findAux` characterization -/

theorem findAux_spec {p rank : List Nat} (hP : PInv p rank) :
    ∀ fuel i, i < p.length →
      p.length - (roots p).card ≤ fuel + rank.getD i 0 →
      (findAux fuel p i).1 = rootD p i ∧
      (findAux fuel p i).2.length = p.length ∧
      PInv (findAux fuel p i).2 rank ∧
      roots (findAux fuel p i).2 = roots p ∧
      (∀ j, rootD (findAux fuel p i).2 j = rootD p j) := by
  intro fuel
  induction fuel with
  | zero =>
    intro i hi hfuel
    have hroot : p.getD i i = i := by
      by_contra hne
      have h1 := hP.rankLt i hi hne
      have h2 := hP.rankBd (p.getD i i) (hP.bound i hi)
      omega
    have hres : findAux 0 p i = (i, p) := rfl
    rw [hres]
    exact ⟨(rootD_of_root hP hroot).symm, rfl, hP, rfl, fun _ => rfl⟩
  | succ fuel ih =>
    intro i hi hfuel
    by_cases hroot : p.getD i i = i
    · have hres : findAux (fuel + 1) p i = (i, p) := by
        simp only [findAux]
        rw [if_pos hroot]
      rw [hres]
      exact ⟨(rootD_of_root hP hroot).symm, rfl, hP, rfl, fun _ => rfl⟩
    · have hpi : p.getD i i < p.length := hP.bound i hi
      have hfuel' : p.length - (roots p).card ≤ fuel + rank.getD (p.getD i i) 0 := by
        have := hP.rankLt i hi hroot
        omega
      obtain ⟨h1, h2, h3, h4, h5⟩ := ih (p.getD i i) hpi hfuel'
      set q := (findAux fuel p (p.getD i i)) with hq
      -- the returned root is the root of `i` as well
      have hri : q.1 = rootD p i := by
        rw [h1, rootD_step hP hi hroot]
      -- `i` is still a non-root of the compressed array `q.2`
      have hiq : i < q.2.length := by rw [h2]; exact hi
      have hqne : q.2.getD i i ≠ i := by
        intro hcon
        have : i ∈ roots q.2 := mem_roots.mpr ⟨hiq, hcon⟩
        rw [h4] at this
        exact hroot (mem_roots.mp this).2
      have hfq : FindsTo q.2 i (q.1) := by
        have := findsTo_rootD h3 hiq
        rwa [h5 i, ← hri] at this
      have hres : findAux (fuel + 1) p i = (q.1, q.2.set i q.1) := by
        simp only [findAux]
        rw [if_neg hroot]
      rw [hres]
      refine ⟨hri, ?_, ?_, ?_, ?_⟩
      · rw [List.length_set, h2]
      · exact pinv_compress h3 hqne hfq
      · rw [roots_compress hqne hfq, h4]
      · intro j
        rw [rootD_compress h3 hqne hfq j, h5 j]

end UnionFind

namespace UnionFind

/-! ### `find` specification -/

theorem find_spec {uf : UnionFind} (hW : WF uf) {i : Nat}
    (hi : i < uf.parent.length) :
    (uf.find i).1 = rootD uf.parent i ∧
    (uf.find i).2.parent.length = uf.parent.length ∧
    (uf.find i).2.rank = uf.rank ∧
    (uf.find i).2.num_sets = uf.num_sets ∧
    roots (uf.find i).2.parent = roots uf.parent ∧
    (∀ j, rootD (uf.find i).2.parent j = rootD uf.parent j) ∧
    WF (uf.find i).2 := by
  have hcard := roots_card_le uf.parent
  obtain ⟨h1, h2, h3, h4, h5⟩ :=
    findAux_spec hW.pinv uf.parent.length i hi (by omega)
  have hfind1 : (uf.find i).1 = (findAux uf.parent.length uf.parent i).1 := rfl
  have hfind2 : (uf.find i).2.parent = (findAux uf.parent.length uf.parent i).2 := rfl
  have hrank : (uf.find i).2.rank = uf.rank := rfl
  have hns : (uf.find i).2.num_sets = uf.num_sets := rfl
  refine ⟨hfind1 ▸ h1, hfind2 ▸ h2, hrank, hns, hfind2 ▸ h4, ?_, ?_⟩
  · intro j
    rw [hfind2]
    exact h5 j
  · refine ⟨?_, ?_, ?_⟩
    · rw [hrank, hfind2, h2, hW.rankLen]
    · rw [hfind2, hrank]
      exact h3
    · rw [hns, hfind2, h4, hW.sets]

/-! ### Linking one root under another -/

theorem findsTo_link {p : List Nat} {a b : Nat} (ha : p.getD a a = a)
    (hb : p.getD b b = b) (hba : b ≠ a) (haL : a < p.length) :
    ∀ {x s}, FindsTo p x s → FindsTo (p.set a b) x (if s = a then b else s) := by
  intro x s h
  induction h with
  | root x hp =>
    by_cases hxa : x = a
    · subst hxa
      rw [if_pos rfl]
      refine FindsTo.step x b ?_ ?_
      · rw [getD_set_self haL]
        exact hba
      · rw [getD_set_self haL]
        exact FindsTo.root b (by rw [getD_set_other (Ne.symm hba), hb])
    · rw [if_neg hxa]
      exact FindsTo.root x (by rw [getD_set_other (fun h => hxa h.symm), hp])
  | step x s hne htail ih =>
    have hxa : x ≠ a := fun hxa => hne (hxa ▸ ha)
    refine FindsTo.step x _ ?_ ?_
    · rw [getD_set_other (fun h => hxa h.symm)]
      exact hne
    · rw [getD_set_other (fun h => hxa h.symm)]
      exact ih

theorem roots_link {p : List Nat} {a b : Nat} (ha : a ∈ roots p) (hba : b ≠ a) :
    roots (p.set a b) = (roots p).erase a := by
  obtain ⟨haL, haR⟩ := mem_roots.mp ha
  ext j
  simp only [mem_roots, List.length_set, Finset.mem_erase]
  by_cases hja : j = a
  · subst hja
    rw [getD_set_self haL]
    constructor
    · rintro ⟨-, h⟩
      exact absurd h hba
    · rintro ⟨h, -⟩
      exact absurd rfl h
  · rw [getD_set_other (fun h => hja h.symm)]
    constructor
    · rintro ⟨h1, h2⟩
      exact ⟨hja, h1, h2⟩
    · rintro ⟨-, h1, h2⟩
      exact ⟨h1, h2⟩

theorem rootD_link {p rank rank' : List Nat} (hP : PInv p rank)
    (hP' : PInv (p.set a b) rank') (ha : a ∈ roots p) (hb : b ∈ roots p)
    (hba : b ≠ a) :
    ∀ x, rootD (p.set a b) x = if rootD p x = a then b else rootD p x := by
  obtain ⟨haL, haR⟩ := mem_roots.mp ha
  obtain ⟨hbL, hbR⟩ := mem_roots.mp hb
  intro x
  by_cases hx : x < p.length
  · have h1 := findsTo_link haR hbR hba haL (findsTo_rootD hP hx)
    exact rootD_eq hP' h1 (by rw [List.length_set]; exact hx)
  · have h1 : rootD p x = x := rootD_of_ge (by omega)
    have h2 : rootD (p.set a b) x = x :=
      rootD_of_ge (by rw [List.length_set]; omega)
    rw [h1, h2, if_neg (by omega)]

theorem pinv_link_lt {p rank : List Nat} (hP : PInv p rank) {a b : Nat}
    (ha : a ∈ roots p) (hb : b ∈ roots p) (hab : a ≠ b)
    (hrk : rank.getD a 0 < rank.getD b 0) :
    PInv (p.set a b) rank := by
  obtain ⟨haL, haR⟩ := mem_roots.mp ha
  obtain ⟨hbL, hbR⟩ := mem_roots.mp hb
  have hcard : 1 ≤ (roots p).card := Finset.card_pos.mpr ⟨a, ha⟩
  have hroots := roots_link ha (Ne.symm hab)
  have hcard' : (roots (p.set a b)).card = (roots p).card - 1 := by
    rw [hroots]
    exact Finset.card_erase_of_mem ha
  refine ⟨?_, ?_, ?_⟩
  · intro j hj
    rw [List.length_set] at hj
    by_cases hja : j = a
    · subst hja
      rw [getD_set_self haL, List.length_set]
      exact hbL
    · rw [getD_set_other (fun h => hja h.symm), List.length_set]
      exact hP.bound j hj
  · intro j hj hne
    rw [List.length_set] at hj
    by_cases hja : j = a
    · subst hja
      rw [getD_set_self haL]
      exact hrk
    · rw [getD_set_other (fun h => hja h.symm)] at hne ⊢
      exact hP.rankLt j hj hne
  · intro j hj
    rw [List.length_set] at hj
    rw [hcard', List.length_set]
    have := hP.rankBd j hj
    omega

theorem pinv_link_eq {p rank : List Nat} (hP : PInv p rank) {a b : Nat}
    (ha : a ∈ roots p) (hb : b ∈ roots p) (hab : a ≠ b)
    (hbLen : b < rank.length)
    (hrk : rank.getD a 0 = rank.getD b 0) :
    PInv (p.set a b) (rank.set b (rank.getD b 0 + 1)) := by
  obtain ⟨haL, haR⟩ := mem_roots.mp ha
  obtain ⟨hbL, hbR⟩ := mem_roots.mp hb
  have hcard : 1 ≤ (roots p).card := Finset.card_pos.mpr ⟨a, ha⟩
  have hroots := roots_link ha (Ne.symm hab)
  have hcard' : (roots (p.set a b)).card = (roots p).card - 1 := by
    rw [hroots]
    exact Finset.card_erase_of_mem ha
  have hrk_mono : ∀ x, rank.getD x 0 ≤ (rank.set b (rank.getD b 0 + 1)).getD x 0 := by
    intro x
    by_cases hxb : x = b
    · subst hxb
      rw [getD_set_self hbLen]
      omega
    · rw [getD_set_other (fun h => hxb h.symm)]
  refine ⟨?_, ?_, ?_⟩
  · intro j hj
    rw [List.length_set] at hj
    by_cases hja : j = a
    · subst hja
      rw [getD_set_self haL, List.length_set]
      exact hbL
    · rw [getD_set_other (fun h => hja h.symm), List.length_set]
      exact hP.bound j hj
  · intro j hj hne
    rw [List.length_set] at hj
    by_cases hja : j = a
    · subst hja
      rw [getD_set_self haL, getD_set_self hbLen,
        getD_set_other (fun h => hab h.symm)]
      omega
    · rw [getD_set_other (fun h => hja h.symm)] at hne ⊢
      have h1 := hP.rankLt j hj hne
      have h2 := hrk_mono (p.getD j j)
      have h3 : (rank.set b (rank.getD b 0 + 1)).getD j 0 = rank.getD j 0 := by
        by_cases hjb : j = b
        · subst hjb
          exact absurd hbR hne
        · rw [getD_set_other (fun h => hjb h.symm)]
      rw [h3]
      omega
  · intro j hj
    rw [List.length_set] at hj
    rw [hcard', List.length_set]
    have h1 := hP.rankBd j hj
    by_cases hjb : j = b
    · subst hjb
      rw [getD_set_self hbLen]
      have h2 := hP.rankBd a haL
      omega
    · rw [getD_set_other (fun h => hjb h.symm)]
      omega

end UnionFind

namespace UnionFind

/-- The common shape of the three merging branches of `union`:
parent of root `a` is set to root `b`, ranks become `rank'`, and `num_sets`
is decremented. -/
theorem union_branch {uf2 : UnionFind} (hW2 : WF uf2) {a b : Nat}
    (ha : a ∈ roots uf2.parent) (hb : b ∈ roots uf2.parent) (hab : a ≠ b)
    {rank' : List Nat} (hlen : rank'.length = uf2.rank.length)
    (hPI : PInv (uf2.parent.set a b) rank') :
    WF { uf2 with
          parent := uf2.parent.set a b,
          rank := rank',
          num_sets := uf2.num_sets - 1 } ∧
    (∀ x, rootD (uf2.parent.set a b) x =
      if rootD uf2.parent x = a then b else rootD uf2.parent x) := by
  have hcard : 1 ≤ (roots uf2.parent).card := Finset.card_pos.mpr ⟨a, ha⟩
  have hroots := roots_link ha (Ne.symm hab)
  have hcard' : (roots (uf2.parent.set a b)).card = (roots uf2.parent).card - 1 := by
    rw [hroots]
    exact Finset.card_erase_of_mem ha
  refine ⟨⟨?_, hPI, ?_⟩, ?_⟩
  · simp only [List.length_set]
    rw [hlen, hW2.rankLen]
  · simp only [hcard']
    rw [hW2.sets]
    push_cast [Nat.cast_sub hcard]
    ring
  · exact rootD_link hW2.pinv hPI ha hb (Ne.symm hab)

/-- Full characterization of `union(i, j)` on well-formed states: the Python
return value is always `None`; if the two roots coincide nothing changes
(up to path compression); otherwise the classes of `i` and `j` are merged
into a single class rooted at one of the two old roots and `num_sets` drops
by exactly 1. -/
theorem union_spec {uf : UnionFind} (hW : WF uf) {i j : Nat}
    (hi : i < uf.parent.length) (hj : j < uf.parent.length) :
    (uf.union i j).2 = none ∧
    (uf.union i j).1.parent.length = uf.parent.length ∧
    WF (uf.union i j).1 ∧
    (rootD uf.parent i = rootD uf.parent j →
      (uf.union i j).1.num_sets = uf.num_sets ∧
      ∀ x, rootD (uf.union i j).1.parent x = rootD uf.parent x) ∧
    (rootD uf.parent i ≠ rootD uf.parent j →
      (uf.union i j).1.num_sets = uf.num_sets - 1 ∧
      ∃ w, (w = rootD uf.parent i ∨ w = rootD uf.parent j) ∧
        ∀ x, rootD (uf.union i j).1.parent x =
          if rootD uf.parent x = rootD uf.parent i ∨
             rootD uf.parent x = rootD uf.parent j
          then w else rootD uf.parent x) := by
  obtain ⟨ha1, ha2, ha3, ha4, ha5, ha6, ha7⟩ := find_spec hW hi
  have hj' : j < (uf.find i).2.parent.length := by rw [ha2]; exact hj
  obtain ⟨hb1, hb2, hb3, hb4, hb5, hb6, hb7⟩ := find_spec ha7 hj'
  set uf2 := ((uf.find i).2.find j).2 with huf2
  have hrootj : ((uf.find i).2.find j).1 = rootD uf.parent j := by
    rw [hb1, ha6 j]
  have hlen2 : uf2.parent.length = uf.parent.length := by rw [hb2, ha2]
  have hrank2 : uf2.rank = uf.rank := by rw [hb3, ha3]
  have hns2 : uf2.num_sets = uf.num_sets := by rw [hb4, ha4]
  have hroots2 : roots uf2.parent = roots uf.parent := by rw [hb5, ha5]
  have hrootD2 : ∀ x, rootD uf2.parent x = rootD uf.parent x := by
    intro x
    rw [hb6 x, ha6 x]
  have hriM : rootD uf.parent i ∈ roots uf2.parent := by
    rw [hroots2, mem_roots]
    exact ⟨rootD_lt hW.pinv hi, rootD_isRoot hW.pinv hi⟩
  have hrjM : rootD uf.parent j ∈ roots uf2.parent := by
    rw [hroots2, mem_roots]
    exact ⟨rootD_lt hW.pinv hj, rootD_isRoot hW.pinv hj⟩
  have hunfold : uf.union i j =
      (if (uf.find i).1 ≠ ((uf.find i).2.find j).1 then
        if uf2.rank.getD (uf.find i).1 0 < uf2.rank.getD ((uf.find i).2.find j).1 0 then
          ({ uf2 with
              parent := uf2.parent.set (uf.find i).1 ((uf.find i).2.find j).1,
              num_sets := uf2.num_sets - 1 }, none)
        else if uf2.rank.getD (uf.find i).1 0 > uf2.rank.getD ((uf.find i).2.find j).1 0 then
          ({ uf2 with
              parent := uf2.parent.set ((uf.find i).2.find j).1 (uf.find i).1,
              num_sets := uf2.num_sets - 1 }, none)
        else
          ({ uf2 with
              parent := uf2.parent.set ((uf.find i).2.find j).1 (uf.find i).1,
              rank := uf2.rank.set (uf.find i).1 (uf2.rank.getD (uf.find i).1 0 + 1),
              num_sets := uf2.num_sets - 1 }, none)
      else (uf2, none)) := rfl
  rw [hunfold, ha1, hrootj]
  by_cases hrr : rootD uf.parent i = rootD uf.parent j
  · rw [if_neg (by simpa using hrr)]
    refine ⟨rfl, hlen2, hb7, fun _ => ⟨hns2, hrootD2⟩, fun hcon => absurd hrr hcon⟩
  · rw [if_pos (by simpa using hrr)]
    by_cases hlt : uf2.rank.getD (rootD uf.parent i) 0 < uf2.rank.getD (rootD uf.parent j) 0
    · rw [if_pos hlt]
      obtain ⟨hwf, hrd⟩ := union_branch hb7 hriM hrjM hrr rfl
        (pinv_link_lt hb7.pinv hriM hrjM hrr hlt)
      refine ⟨rfl, ?_, hwf, fun hcon => absurd hcon hrr, fun _ => ?_⟩
      · simp only [List.length_set]
        exact hlen2
      · refine ⟨by simp [hns2], rootD uf.parent j, Or.inr rfl, ?_⟩
        intro x
        have := hrd x
        rw [hrootD2 x] at this
        rw [this]
        by_cases h1 : rootD uf.parent x = rootD uf.parent i
        · rw [if_pos h1, if_pos (Or.inl h1)]
        · rw [if_neg h1]
          by_cases h2 : rootD uf.parent x = rootD uf.parent j
          · rw [if_pos (Or.inr h2), h2]
          · rw [if_neg (by tauto)]
    · rw [if_neg hlt]
      by_cases hgt : uf2.rank.getD (rootD uf.parent i) 0 > uf2.rank.getD (rootD uf.parent j) 0
      · rw [if_pos hgt]
        obtain ⟨hwf, hrd⟩ := union_branch hb7 hrjM hriM (Ne.symm hrr) rfl
          (pinv_link_lt hb7.pinv hrjM hriM (Ne.symm hrr) hgt)
        refine ⟨rfl, ?_, hwf, fun hcon => absurd hcon hrr, fun _ => ?_⟩
        · simp only [List.length_set]
          exact hlen2
        · refine ⟨by simp [hns2], rootD uf.parent i, Or.inl rfl, ?_⟩
          intro x
          have := hrd x
          rw [hrootD2 x] at this
          rw [this]
          by_cases h2 : rootD uf.parent x = rootD uf.parent j
          · rw [if_pos h2, if_pos (Or.inr h2)]
          · rw [if_neg h2]
            by_cases h1 : rootD uf.parent x = rootD uf.parent i
            · rw [if_pos (Or.inl h1), h1]
            · rw [if_neg (by tauto)]
      · rw [if_neg hgt]
        have heq : uf2.rank.getD (rootD uf.parent j) 0 =
            uf2.rank.getD (rootD uf.parent i) 0 := by omega
        have hriLen : rootD uf.parent i < uf2.rank.length := by
          rw [hrank2, hW.rankLen]
          exact rootD_lt hW.pinv hi
        obtain ⟨hwf, hrd⟩ := union_branch hb7 hrjM hriM (Ne.symm hrr)
          (by simp) (pinv_link_eq hb7.pinv hrjM hriM (Ne.symm hrr) hriLen heq)
        refine ⟨rfl, ?_, hwf, fun hcon => absurd hcon hrr, fun _ => ?_⟩
        · simp only [List.length_set]
          exact hlen2
        · refine ⟨by simp [hns2], rootD uf.parent i, Or.inl rfl, ?_⟩
          intro x
          have := hrd x
          rw [hrootD2 x] at this
          rw [this]
          by_cases h2 : rootD uf.parent x = rootD uf.parent j
          · rw [if_pos h2, if_pos (Or.inr h2)]
          · rw [if_neg h2]
            by_cases h1 : rootD uf.parent x = rootD uf.parent i
            · rw [if_pos (Or.inl h1), h1]
            · rw [if_neg (by tauto)]

end UnionFind

namespace UnionFind

/-! ### Initial state and reachability -/

theorem getD_range (n i : Nat) : (List.range n).getD i i = i := by
  by_cases h : i < n
  · simp [List.getD_eq_getElem?_getD, List.getElem?_range h]
  · exact getD_of_ge (by simpa using h)

theorem roots_init (n : Nat) : roots (List.range n) = Finset.range n := by
  ext j
  simp only [roots, Finset.mem_filter, Finset.mem_range, List.length_range]
  constructor
  · rintro ⟨h, -⟩
    exact h
  · intro h
    exact ⟨h, getD_range n j⟩

theorem init_parent_length (n : Nat) : (init n).parent.length = n := by
  simp [init]

theorem init_WF (n : Nat) : WF (init n) := by
  have hrep : ∀ i, (List.replicate n (0 : Nat)).getD i 0 = 0 := by
    intro i
    simp only [List.getD_eq_getElem?_getD, List.getElem?_replicate]
    split <;> rfl
  refine ⟨by simp [init], ⟨?_, ?_, ?_⟩, ?_⟩
  · intro i hi
    simp only [init, List.length_range] at hi ⊢
    rw [getD_range]
    exact hi
  · intro i hi hne
    simp only [init] at hne
    exact absurd (getD_range n i) hne
  · intro i hi
    simp only [init, List.length_range] at hi ⊢
    rw [roots_init, hrep i, Finset.card_range]
    omega
  · simp [init, roots_init]

theorem Reachable.wf_and_length {size : Nat} {uf : UnionFind}
    (h : Reachable size uf) : WF uf ∧ uf.parent.length = size := by
  induction h with
  | init => exact ⟨init_WF size, init_parent_length size⟩
  | union uf i j hr hi hj ih =>
    obtain ⟨hW, hlen⟩ := ih
    obtain ⟨-, hlen', hW', -, -⟩ :=
      union_spec hW (show i < uf.parent.length by omega)
        (show j < uf.parent.length by omega)
    exact ⟨hW', by rw [hlen', hlen]⟩

theorem Reachable.wf {size : Nat} {uf : UnionFind} (h : Reachable size uf) :
    WF uf := h.wf_and_length.1

theorem Reachable.parent_length {size : Nat} {uf : UnionFind}
    (h : Reachable size uf) : uf.parent.length = size := h.wf_and_length.2

end UnionFind

namespace UnionFind

/-! ### Consequences used by the partition-invariant claims -/

theorem find_idempotent {uf : UnionFind} (hW : WF uf) {i : Nat}
    (hi : i < uf.parent.length) :
    ((uf.find i).2.find (uf.find i).1).1 = (uf.find i).1 := by
  obtain ⟨ha1, ha2, -, -, -, ha6, ha7⟩ := find_spec hW hi
  have hrlt : (uf.find i).1 < (uf.find i).2.parent.length := by
    rw [ha2, ha1]
    exact rootD_lt hW.pinv hi
  obtain ⟨hb1, -, -, -, -, -, -⟩ := find_spec ha7 hrlt
  rw [hb1, ha6, ha1]
  exact rootD_of_root hW.pinv (rootD_isRoot hW.pinv hi)

theorem dedup_rootD_length {p rank : List Nat} (hP : PInv p rank) :
    ((List.range p.length).map (rootD p)).dedup.length = (roots p).card := by
  have h1 : ((List.range p.length).map (rootD p)).toFinset = roots p := by
    ext r
    simp only [List.mem_toFinset, List.mem_map, List.mem_range, mem_roots]
    constructor
    · rintro ⟨i, hi, rfl⟩
      exact ⟨rootD_lt hP hi, rootD_isRoot hP hi⟩
    · rintro ⟨hr, hroot⟩
      exact ⟨r, hr, rootD_of_root hP hroot⟩
  rw [← List.card_toFinset, h1]

end UnionFind

/-! ## Claims -/

/-- **C6** (confirmed).  For every forest created with `new(size)` and every
sequence of in-range `union` calls, and for every pixel index `i`: `find(i)`
is idempotent (`find(find(i)) == find(i)`), and `num_sets` equals the number
of distinct values of `find` over all indices. -/
theorem claim_C6 (size : Nat) (uf : UnionFind) (h : UnionFind.Reachable size uf) :
    (∀ i, i < size → ((uf.find i).2.find (uf.find i).1).1 = (uf.find i).1) ∧
    uf.num_sets =
      (((List.range size).map (fun i => (uf.find i).1)).dedup.length : Int) := by
  obtain ⟨hW, hlen⟩ := h.wf_and_length
  constructor
  · intro i hi
    exact UnionFind.find_idempotent hW (by omega)
  · have hmap : (List.range size).map (fun i => (uf.find i).1)
        = (List.range size).map (UnionFind.rootD uf.parent) := by
      apply List.map_congr_left
      intro a ha
      exact (UnionFind.find_spec hW (by simp at ha; omega)).1
    rw [hmap, ← hlen, UnionFind.dedup_rootD_length hW.pinv, hW.sets]

/-- Witness for C6 at the concrete forest `UnionFind(3)` after `union(0, 1)`. -/
theorem claim_C6_witness :
    (((((UnionFind.init 3).union 0 1).1.find 2).2.find
        (((UnionFind.init 3).union 0 1).1.find 2).1).1 =
      (((UnionFind.init 3).union 0 1).1.find 2).1) ∧
    ((UnionFind.init 3).union 0 1).1.num_sets =
      (((List.range 3).map
        (fun i => (((UnionFind.init 3).union 0 1).1.find i).1)).dedup.length : Int) := by
  have h := claim_C6 3 ((UnionFind.init 3).union 0 1).1
    (UnionFind.Reachable.union (UnionFind.init 3) 0 1 UnionFind.Reachable.init
      (by decide) (by decide))
  exact ⟨h.1 2 (by decide), h.2⟩

/-- **C5** (corrected).  For every in-range pair `(i, j)`: `union(i, j)`
decrements `num_sets` by exactly 1 if `i` and `j` were in different sets and
leaves `num_sets` (and the whole partition) unchanged if they were already in
the same set.  Contrary to the original claim, `union` does **not** return the
new root nor any merge signal: the Python method has no `return` statement, so
its return value is `None` in both cases. -/
theorem claim_C5 (uf : UnionFind) (i j : Nat) (hW : UnionFind.WF uf)
    (hi : i < uf.parent.length) (hj : j < uf.parent.length) :
    (uf.union i j).2 = none ∧
    (UnionFind.rootD uf.parent i ≠ UnionFind.rootD uf.parent j →
      (uf.union i j).1.num_sets = uf.num_sets - 1) ∧
    (UnionFind.rootD uf.parent i = UnionFind.rootD uf.parent j →
      (uf.union i j).1.num_sets = uf.num_sets ∧
      ∀ x, UnionFind.rootD (uf.union i j).1.parent x =
        UnionFind.rootD uf.parent x) := by
  obtain ⟨h0, -, -, heq, hne⟩ := UnionFind.union_spec hW hi hj
  exact ⟨h0, fun h => (hne h).1, fun h => heq h⟩

/-- Witness for C5 at `UnionFind(2)`, `union(0, 1)` (different sets) — the
hypotheses are discharged at a concrete input. -/
theorem claim_C5_witness :
    ((UnionFind.init 2).union 0 1).2 = none ∧
    ((UnionFind.init 2).union 0 1).1.num_sets = (UnionFind.init 2).num_sets - 1 := by
  have h := claim_C5 (UnionFind.init 2) 0 1 (UnionFind.init_WF 2)
    (by decide) (by decide)
  exact ⟨h.1, h.2.1 (by decide)⟩

/-- Counterexample to C5 as stated: on `UnionFind(2)`, `union(0, 1)` merges
two different sets (`num_sets` drops from 2 to 1), yet the call returns
`None` — not the new root (`some 0`), and the same `None` that a no-op
`union` returns, so no merge signal is given either. -/
theorem claim_C5_counterexample :
    ((UnionFind.init 2).union 0 1).2 = none ∧
    ((UnionFind.init 2).union 0 1).2 ≠ some 0 ∧
    ((UnionFind.init 2).union 0 1).1.num_sets = 1 ∧
    (UnionFind.init 2).num_sets = 2 ∧
    ((UnionFind.init 2).union 0 1).2 = ((UnionFind.init 2).union 0 0).2 := by
  decide

/-- **C7** (corrected).  On a well-formed forest, `find(i)` (with a Python
integer argument `i`) signals `IndexError` iff `i` is outside `[-size, size)`
— numpy indexing accepts negative indices down to `-size`, which the original
claim's range `[0, size)` misses — and for every `i` in `[0, size)` it
succeeds and returns the root of `i`. -/
theorem claim_C7 (uf : UnionFind) (i : Int) (hW : UnionFind.WF uf) :
    (uf.findE i = none ↔
      ¬(-(uf.parent.length : Int) ≤ i ∧ i < (uf.parent.length : Int))) ∧
    (0 ≤ i → i < (uf.parent.length : Int) →
      uf.findE i = some (uf.find i.toNat) ∧
      (uf.find i.toNat).1 = UnionFind.rootD uf.parent i.toNat) := by
  constructor
  · unfold UnionFind.findE UnionFind.npIndex
    by_cases h1 : 0 ≤ i ∧ i < (uf.parent.length : Int)
    · rw [if_pos h1]
      simp only []
      constructor
      · intro h
        exact absurd h (by simp)
      · intro h
        exact absurd ⟨by omega, h1.2⟩ h
    · rw [if_neg h1]
      by_cases h2 : -(uf.parent.length : Int) ≤ i ∧ i < 0
      · rw [if_pos h2]
        constructor
        · intro h
          exact absurd h (by simp)
        · intro h
          exact absurd ⟨h2.1, by omega⟩ h
      · rw [if_neg h2]
        constructor
        · intro _
          omega
        · intro _
          rfl
  · intro h0 hlt
    have hidx : UnionFind.npIndex uf.parent.length i = some i.toNat := by
      unfold UnionFind.npIndex
      rw [if_pos ⟨h0, hlt⟩]
    constructor
    · unfold UnionFind.findE
      rw [hidx]
    · exact (UnionFind.find_spec hW (by omega)).1

/-- Witness for C7 at `UnionFind(2)`, `i = 0`. -/
theorem claim_C7_witness :
    ((UnionFind.init 2).findE 0 = none ↔
      ¬(-((UnionFind.init 2).parent.length : Int) ≤ 0 ∧
        (0 : Int) < ((UnionFind.init 2).parent.length : Int))) ∧
    ((UnionFind.init 2).findE 0 = some ((UnionFind.init 2).find 0) ∧
      ((UnionFind.init 2).find 0).1 =
        UnionFind.rootD (UnionFind.init 2).parent 0) := by
  have h := claim_C7 (UnionFind.init 2) 0 (UnionFind.init_WF 2)
  exact ⟨h.1, h.2 (by decide) (by decide)⟩

/-- Counterexample to C7 as stated: the claim says `find(i)` fails iff
`i ∉ [0, size)`.  On `UnionFind(2)`, the index `-1` is outside `[0, 2)` yet
`find(-1)` succeeds (numpy resolves it to index `1`), returning root `1`. -/
theorem claim_C7_counterexample :
    ¬(0 ≤ (-1 : Int)) ∧
    (UnionFind.init 2).findE (-1) = some ((UnionFind.init 2).find 1) ∧
    ((UnionFind.init 2).findE (-1)).isSome = true := by
  decide

/-! ### Edge order and Pass 1 characterization -/

theorem edgeLE_trans : ∀ a b c : Int × Nat × Nat,
    edgeLE a b → edgeLE b c → edgeLE a c := by
  intro a b c hab hbc
  simp only [edgeLE, Bool.or_eq_true, Bool.and_eq_true, decide_eq_true_eq] at *
  omega

theorem edgeLE_total : ∀ a b : Int × Nat × Nat, edgeLE a b || edgeLE b a := by
  intro a b
  simp only [edgeLE, Bool.or_eq_true, Bool.and_eq_true, decide_eq_true_eq]
  omega

/-! ### Sortedness and permutation facts for `pySort` -/

theorem mem_insertSorted {α : Type} {le : α → α → Bool} {a c : α} :
    ∀ {l : List α}, c ∈ insertSorted le a l ↔ c = a ∨ c ∈ l := by
  intro l
  induction l with
  | nil => simp [insertSorted]
  | cons b l ih =>
    simp only [insertSorted]
    split
    · simp
    · simp only [List.mem_cons, ih]
      tauto

theorem insertSorted_perm {α : Type} (le : α → α → Bool) (a : α) :
    ∀ l : List α, (insertSorted le a l).Perm (a :: l) := by
  intro l
  induction l with
  | nil => simp [insertSorted]
  | cons b l ih =>
    simp only [insertSorted]
    split
    · exact List.Perm.refl _
    · exact (List.Perm.cons b ih).trans (List.Perm.swap a b l)

theorem pySort_perm {α : Type} (le : α → α → Bool) :
    ∀ l : List α, (pySort le l).Perm l := by
  intro l
  induction l with
  | nil => exact List.Perm.refl _
  | cons a l ih =>
    exact (insertSorted_perm le a (pySort le l)).trans (List.Perm.cons a ih)

theorem pairwise_insertSorted {α : Type} {le : α → α → Bool}
    (htr : ∀ a b c, le a b → le b c → le a c)
    (hto : ∀ a b, le a b || le b a) (a : α) :
    ∀ {l : List α}, l.Pairwise (fun x y => le x y = true) →
      (insertSorted le a l).Pairwise (fun x y => le x y = true) := by
  intro l hl
  induction l with
  | nil => simp [insertSorted]
  | cons b l ih =>
    rw [List.pairwise_cons] at hl
    simp only [insertSorted]
    split
    · rename_i hab
      refine List.Pairwise.cons ?_ (List.Pairwise.cons hl.1 hl.2)
      intro c hc
      rcases List.mem_cons.mp hc with rfl | hc
      · exact hab
      · exact htr a b c hab (hl.1 c hc)
    · rename_i hab
      refine List.Pairwise.cons ?_ (ih hl.2)
      intro c hc
      rcases mem_insertSorted.mp hc with h | hc
      · subst h
        have := hto c b
        simp only [Bool.or_eq_true] at this
        rcases this with h | h
        · exact absurd h hab
        · exact h
      · exact hl.1 c hc

theorem pairwise_pySort {α : Type} {le : α → α → Bool}
    (htr : ∀ a b c, le a b → le b c → le a c)
    (hto : ∀ a b, le a b || le b a) :
    ∀ l : List α, (pySort le l).Pairwise (fun x y => le x y = true) := by
  intro l
  induction l with
  | nil => simp [pySort]
  | cons a l ih => exact pairwise_insertSorted htr hto a ih

/-- `create_graph` returns its edges sorted: in particular weights are
non-decreasing along the returned list. -/
theorem create_graph_sorted (img : Image) :
    (create_graph img).Pairwise fun e1 e2 => e1.1 ≤ e2.1 := by
  have h := pairwise_pySort edgeLE_trans edgeLE_total
    ((List.range img.height).flatMap fun y =>
      (List.range img.width).flatMap fun x =>
        (if x < img.width - 1 then
          [(pixdiff img y x y (x + 1), y * img.width + x, y * img.width + (x + 1))]
        else []) ++
        (if y < img.height - 1 then
          [(pixdiff img y x (y + 1) x, y * img.width + x, (y + 1) * img.width + x)]
        else []))
  refine List.Pairwise.imp ?_ h
  intro a b hab
  simp only [edgeLE, Bool.or_eq_true, Bool.and_eq_true, decide_eq_true_eq] at hab
  omega

/-- The merge branch of Pass 1, abstract over the already-compressed state:
`union(ru, rv)` on two distinct roots followed by `find(ru)` to locate the
resulting root. -/
theorem merge_branch_spec (uf2 : UnionFind) (th : List Int)
    (ru rv : Nat) (hW2 : UnionFind.WF uf2)
    (hruL : ru < uf2.parent.length) (hrvL : rv < uf2.parent.length)
    (hru2 : UnionFind.rootD uf2.parent ru = ru)
    (hrv2 : UnionFind.rootD uf2.parent rv = rv)
    (hrr : ru ≠ rv) (hth : th.length = uf2.parent.length) :
    UnionFind.WF ((uf2.union ru rv).1.find ru).2 ∧
    ((uf2.union ru rv).1.find ru).2.parent.length = uf2.parent.length ∧
    ((uf2.union ru rv).1.find ru).2.num_sets = uf2.num_sets - 1 ∧
    (((uf2.union ru rv).1.find ru).1 = ru ∨
      ((uf2.union ru rv).1.find ru).1 = rv) ∧
    ((uf2.union ru rv).1.find ru).1 < th.length ∧
    (∀ x, UnionFind.rootD ((uf2.union ru rv).1.find ru).2.parent x =
      if UnionFind.rootD uf2.parent x = ru ∨ UnionFind.rootD uf2.parent x = rv
      then ((uf2.union ru rv).1.find ru).1
      else UnionFind.rootD uf2.parent x) := by
  obtain ⟨-, hc2, hc3, -, hc5⟩ := UnionFind.union_spec hW2 hruL hrvL
  have hrr2 : UnionFind.rootD uf2.parent ru ≠ UnionFind.rootD uf2.parent rv := by
    rw [hru2, hrv2]
    exact hrr
  obtain ⟨hd1, w0, hw0, hd3⟩ := hc5 hrr2
  simp only [hru2, hrv2] at hw0 hd3
  have hruL3 : ru < (uf2.union ru rv).1.parent.length := by
    rw [hc2]
    exact hruL
  obtain ⟨he1, he2, -, he4, -, he6, he7⟩ := UnionFind.find_spec hc3 hruL3
  have hw0ru : UnionFind.rootD (uf2.union ru rv).1.parent ru = w0 := by
    rw [hd3 ru, if_pos (Or.inl hru2)]
  have hfr1 : ((uf2.union ru rv).1.find ru).1 = w0 := by
    rw [he1, hw0ru]
  refine ⟨he7, by rw [he2, hc2], by rw [he4, hd1], ?_, ?_, ?_⟩
  · rw [hfr1]
    exact hw0
  · rw [hfr1, hth]
    rcases hw0 with h | h
    · rw [h]
      exact hruL
    · rw [h]
      exact hrvL
  · intro x
    rw [he6 x, hd3 x, hfr1]

/-- One step of Pass 1, fully characterized on well-formed states.
With `ru`/`rv` the roots of the edge's endpoints: if `ru = rv` the edge is
skipped; otherwise the merge happens exactly when `w ≤ min(threshold[ru],
threshold[rv])`, in which case the classes of `u` and `v` are united (others
untouched), `num_sets` drops by 1, and the threshold of the resulting root is
set to `w + k`, all other thresholds unchanged. -/
theorem pass1Step_spec (k : Int) (uf : UnionFind) (th : List Int)
    (e : Int × Nat × Nat) (hW : UnionFind.WF uf)
    (hu : e.2.1 < uf.parent.length) (hv : e.2.2 < uf.parent.length)
    (hth : th.length = uf.parent.length) :
    UnionFind.WF (pass1Step k (uf, th) e).1 ∧
    (pass1Step k (uf, th) e).1.parent.length = uf.parent.length ∧
    (pass1Step k (uf, th) e).2.length = th.length ∧
    (UnionFind.rootD uf.parent e.2.1 = UnionFind.rootD uf.parent e.2.2 →
      (pass1Step k (uf, th) e).1.num_sets = uf.num_sets ∧
      (∀ x, UnionFind.rootD (pass1Step k (uf, th) e).1.parent x =
        UnionFind.rootD uf.parent x) ∧
      (pass1Step k (uf, th) e).2 = th) ∧
    (UnionFind.rootD uf.parent e.2.1 ≠ UnionFind.rootD uf.parent e.2.2 →
      (e.1 ≤ min (th.getD (UnionFind.rootD uf.parent e.2.1) 0)
          (th.getD (UnionFind.rootD uf.parent e.2.2) 0) →
        (pass1Step k (uf, th) e).1.num_sets = uf.num_sets - 1 ∧
        UnionFind.rootD (pass1Step k (uf, th) e).1.parent e.2.1 =
          UnionFind.rootD (pass1Step k (uf, th) e).1.parent e.2.2 ∧
        (UnionFind.rootD (pass1Step k (uf, th) e).1.parent e.2.1 =
            UnionFind.rootD uf.parent e.2.1 ∨
         UnionFind.rootD (pass1Step k (uf, th) e).1.parent e.2.1 =
            UnionFind.rootD uf.parent e.2.2) ∧
        (∀ x, UnionFind.rootD uf.parent x ≠ UnionFind.rootD uf.parent e.2.1 →
          UnionFind.rootD uf.parent x ≠ UnionFind.rootD uf.parent e.2.2 →
          UnionFind.rootD (pass1Step k (uf, th) e).1.parent x =
            UnionFind.rootD uf.parent x) ∧
        (pass1Step k (uf, th) e).2.getD
          (UnionFind.rootD (pass1Step k (uf, th) e).1.parent e.2.1) 0 = e.1 + k ∧
        (∀ r, r ≠ UnionFind.rootD (pass1Step k (uf, th) e).1.parent e.2.1 →
          (pass1Step k (uf, th) e).2.getD r 0 = th.getD r 0)) ∧
      (¬(e.1 ≤ min (th.getD (UnionFind.rootD uf.parent e.2.1) 0)
          (th.getD (UnionFind.rootD uf.parent e.2.2) 0)) →
        (pass1Step k (uf, th) e).1.num_sets = uf.num_sets ∧
        (∀ x, UnionFind.rootD (pass1Step k (uf, th) e).1.parent x =
          UnionFind.rootD uf.parent x) ∧
        UnionFind.rootD (pass1Step k (uf, th) e).1.parent e.2.1 ≠
          UnionFind.rootD (pass1Step k (uf, th) e).1.parent e.2.2 ∧
        (pass1Step k (uf, th) e).2 = th)) := by
  obtain ⟨ha1, ha2, ha3, ha4, ha5, ha6, ha7⟩ := UnionFind.find_spec hW hu
  have hv' : e.2.2 < (uf.find e.2.1).2.parent.length := by omega
  obtain ⟨hb1, hb2, hb3, hb4, hb5, hb6, hb7⟩ := UnionFind.find_spec ha7 hv'
  set uf2 := ((uf.find e.2.1).2.find e.2.2).2 with huf2
  have hru : (uf.find e.2.1).1 = UnionFind.rootD uf.parent e.2.1 := ha1
  have hrv : ((uf.find e.2.1).2.find e.2.2).1 =
      UnionFind.rootD uf.parent e.2.2 := by rw [hb1, ha6]
  have hlen2 : uf2.parent.length = uf.parent.length := by rw [hb2, ha2]
  have hns2 : uf2.num_sets = uf.num_sets := by rw [hb4, ha4]
  have hrootD2 : ∀ x, UnionFind.rootD uf2.parent x = UnionFind.rootD uf.parent x := by
    intro x
    rw [hb6 x, ha6 x]
  have hunfold : pass1Step k (uf, th) e =
      (if (uf.find e.2.1).1 ≠ ((uf.find e.2.1).2.find e.2.2).1 then
        if e.1 ≤ min (th.getD (uf.find e.2.1).1 0)
            (th.getD ((uf.find e.2.1).2.find e.2.2).1 0) then
          (((uf2.union (uf.find e.2.1).1 ((uf.find e.2.1).2.find e.2.2).1).1.find
              (uf.find e.2.1).1).2,
            th.set ((uf2.union (uf.find e.2.1).1
              ((uf.find e.2.1).2.find e.2.2).1).1.find (uf.find e.2.1).1).1 (e.1 + k))
        else (uf2, th)
      else (uf2, th)) := rfl
  rw [hunfold, hru, hrv]
  set ru := UnionFind.rootD uf.parent e.2.1 with hru_def
  set rv := UnionFind.rootD uf.parent e.2.2 with hrv_def
  by_cases hrr : ru = rv
  · rw [if_neg (by simpa using hrr)]
    exact ⟨hb7, hlen2, rfl, fun _ => ⟨hns2, hrootD2, rfl⟩, fun hcon => absurd hrr hcon⟩
  · rw [if_pos (by simpa using hrr)]
    by_cases hwle : e.1 ≤ min (th.getD ru 0) (th.getD rv 0)
    · rw [if_pos hwle]
      have hruL : ru < uf2.parent.length := by
        rw [hlen2]
        exact UnionFind.rootD_lt hW.pinv hu
      have hrvL : rv < uf2.parent.length := by
        rw [hlen2]
        exact UnionFind.rootD_lt hW.pinv hv
      have hru2 : UnionFind.rootD uf2.parent ru = ru := by
        rw [hrootD2]
        exact UnionFind.rootD_of_root hW.pinv (UnionFind.rootD_isRoot hW.pinv hu)
      have hrv2 : UnionFind.rootD uf2.parent rv = rv := by
        rw [hrootD2]
        exact UnionFind.rootD_of_root hW.pinv (UnionFind.rootD_isRoot hW.pinv hv)
      obtain ⟨hf1, hf2, hf3, hf4, hf5, hf6⟩ :=
        merge_branch_spec uf2 th ru rv hb7 hruL hrvL hru2 hrv2 hrr
          (by omega)
      set q := (uf2.union ru rv).1.find ru with hqdef
      have hrootu : UnionFind.rootD q.2.parent e.2.1 = q.1 := by
        rw [hf6 e.2.1, hrootD2, if_pos (Or.inl rfl)]
      have hrootv : UnionFind.rootD q.2.parent e.2.2 = q.1 := by
        rw [hf6 e.2.2, hrootD2, if_pos (Or.inr rfl)]
      refine ⟨hf1, by rw [hf2, hlen2], by simp [List.length_set],
        fun hcon => absurd hcon hrr,
        fun _ => ⟨fun _ => ?_, fun hcon => absurd hwle hcon⟩⟩
      refine ⟨by rw [hf3, hns2], by rw [hrootu, hrootv], ?_, ?_, ?_, ?_⟩
      · rw [hrootu]
        exact hf4
      · intro x hx1 hx2
        rw [hf6 x, hrootD2, if_neg (fun h => h.elim hx1 hx2)]
      · rw [hrootu, UnionFind.getD_set_self hf5]
      · intro r hr
        rw [hrootu] at hr
        exact UnionFind.getD_set_other (fun h => hr h.symm)
    · rw [if_neg hwle]
      refine ⟨hb7, hlen2, rfl, fun hcon => absurd hcon hrr,
        fun _ => ⟨fun hcon => absurd hcon hwle, fun _ => ⟨hns2, hrootD2, ?_, rfl⟩⟩⟩
      rw [hrootD2, hrootD2]
      exact hrr

/-- **C1** (confirmed).  Pass 1 processes the edge list sorted ascending by
weight (conjunct 1); thresholds start at `k` for every index (conjunct 2);
and for each edge `(w, u, v)` with roots `ru`, `rv`: if `ru = rv` the edge is
skipped (no partition/threshold change), otherwise the two components are
merged exactly when `w ≤ min(threshold[ru], threshold[rv])`, and after a merge
the threshold of the resulting root is set to `w + k` (conjunct 3, stated via
`pass1Step`). -/
theorem claim_C1 :
    (∀ img : Image, (create_graph img).Pairwise fun e1 e2 => e1.1 ≤ e2.1) ∧
    (∀ (k : Int) (n i : Nat), i < n → (pass1 k [] n).2.getD i 0 = k) ∧
    (∀ (k : Int) (uf : UnionFind) (th : List Int) (e : Int × Nat × Nat),
      UnionFind.WF uf → e.2.1 < uf.parent.length → e.2.2 < uf.parent.length →
      th.length = uf.parent.length →
      (UnionFind.rootD uf.parent e.2.1 = UnionFind.rootD uf.parent e.2.2 →
        (pass1Step k (uf, th) e).1.num_sets = uf.num_sets ∧
        (∀ x, UnionFind.rootD (pass1Step k (uf, th) e).1.parent x =
          UnionFind.rootD uf.parent x) ∧
        (pass1Step k (uf, th) e).2 = th) ∧
      (UnionFind.rootD uf.parent e.2.1 ≠ UnionFind.rootD uf.parent e.2.2 →
        (e.1 ≤ min (th.getD (UnionFind.rootD uf.parent e.2.1) 0)
            (th.getD (UnionFind.rootD uf.parent e.2.2) 0) →
          (pass1Step k (uf, th) e).1.num_sets = uf.num_sets - 1 ∧
          UnionFind.rootD (pass1Step k (uf, th) e).1.parent e.2.1 =
            UnionFind.rootD (pass1Step k (uf, th) e).1.parent e.2.2 ∧
          (UnionFind.rootD (pass1Step k (uf, th) e).1.parent e.2.1 =
              UnionFind.rootD uf.parent e.2.1 ∨
           UnionFind.rootD (pass1Step k (uf, th) e).1.parent e.2.1 =
              UnionFind.rootD uf.parent e.2.2) ∧
          (∀ x, UnionFind.rootD uf.parent x ≠ UnionFind.rootD uf.parent e.2.1 →
            UnionFind.rootD uf.parent x ≠ UnionFind.rootD uf.parent e.2.2 →
            UnionFind.rootD (pass1Step k (uf, th) e).1.parent x =
              UnionFind.rootD uf.parent x) ∧
          (pass1Step k (uf, th) e).2.getD
            (UnionFind.rootD (pass1Step k (uf, th) e).1.parent e.2.1) 0 =
              e.1 + k ∧
          (∀ r, r ≠ UnionFind.rootD (pass1Step k (uf, th) e).1.parent e.2.1 →
            (pass1Step k (uf, th) e).2.getD r 0 = th.getD r 0)) ∧
        (¬(e.1 ≤ min (th.getD (UnionFind.rootD uf.parent e.2.1) 0)
            (th.getD (UnionFind.rootD uf.parent e.2.2) 0)) →
          (pass1Step k (uf, th) e).1.num_sets = uf.num_sets ∧
          (∀ x, UnionFind.rootD (pass1Step k (uf, th) e).1.parent x =
            UnionFind.rootD uf.parent x) ∧
          UnionFind.rootD (pass1Step k (uf, th) e).1.parent e.2.1 ≠
            UnionFind.rootD (pass1Step k (uf, th) e).1.parent e.2.2 ∧
          (pass1Step k (uf, th) e).2 = th))) := by
  refine ⟨create_graph_sorted, ?_, ?_⟩
  · intro k n i hi
    have h : (pass1 k [] n).2 = List.replicate n k := rfl
    rw [h]
    simp [List.getD_eq_getElem?_getD, List.getElem?_replicate, hi]
  · intro k uf th e hW hu hv hth
    obtain ⟨-, -, -, h4, h5⟩ := pass1Step_spec k uf th e hW hu hv hth
    exact ⟨h4, h5⟩

/-- Witness for C1: the edge list of a concrete image is weight-sorted, the
initial thresholds are `k`, and a concrete merging step behaves as stated. -/
theorem claim_C1_witness :
    ((create_graph (Image.ofGray [[0, 3]])).Pairwise fun e1 e2 => e1.1 ≤ e2.1) ∧
    (pass1 (5 : Int) [] 4).2.getD 2 0 = 5 ∧
    (pass1Step 5 (UnionFind.init 4, List.replicate 4 5) (3, 0, 1)).1.num_sets =
      (UnionFind.init 4).num_sets - 1 := by
  refine ⟨claim_C1.1 (Image.ofGray [[0, 3]]), claim_C1.2.1 5 4 2 (by decide), ?_⟩
  have hc := claim_C1.2.2 5 (UnionFind.init 4) (List.replicate 4 5) (3, 0, 1)
    (UnionFind.init_WF 4) (by decide) (by decide) (by decide)
  exact ((hc.2 (by decide)).1 (by decide)).1

set_option maxHeartbeats 1000000 in
/-- One step of Pass 2, fully characterized on well-formed states.  The sizes
compared against `min_size` are the *parent-pointer counts*
`np.sum(uf.parent == root)` on the array as it stands after the two `find`
calls; the merge happens exactly when either count is below `min_size`,
irrespective of the edge weight. -/
theorem pass2Step_spec (ms : Int) (uf : UnionFind) (e : Int × Nat × Nat)
    (hW : UnionFind.WF uf)
    (hu : e.2.1 < uf.parent.length) (hv : e.2.2 < uf.parent.length) :
    UnionFind.WF (pass2Step ms uf e) ∧
    (pass2Step ms uf e).parent.length = uf.parent.length ∧
    (UnionFind.rootD uf.parent e.2.1 = UnionFind.rootD uf.parent e.2.2 →
      (pass2Step ms uf e).num_sets = uf.num_sets ∧
      (∀ x, UnionFind.rootD (pass2Step ms uf e).parent x =
        UnionFind.rootD uf.parent x)) ∧
    (UnionFind.rootD uf.parent e.2.1 ≠ UnionFind.rootD uf.parent e.2.2 →
      (((((uf.find e.2.1).2.find e.2.2).2.parent.count
            (UnionFind.rootD uf.parent e.2.1) : Int) < ms ∨
        (((uf.find e.2.1).2.find e.2.2).2.parent.count
            (UnionFind.rootD uf.parent e.2.2) : Int) < ms) →
        (pass2Step ms uf e).num_sets = uf.num_sets - 1 ∧
        UnionFind.rootD (pass2Step ms uf e).parent e.2.1 =
          UnionFind.rootD (pass2Step ms uf e).parent e.2.2 ∧
        (∀ x, UnionFind.rootD uf.parent x ≠ UnionFind.rootD uf.parent e.2.1 →
          UnionFind.rootD uf.parent x ≠ UnionFind.rootD uf.parent e.2.2 →
          UnionFind.rootD (pass2Step ms uf e).parent x =
            UnionFind.rootD uf.parent x)) ∧
      (¬((((uf.find e.2.1).2.find e.2.2).2.parent.count
            (UnionFind.rootD uf.parent e.2.1) : Int) < ms ∨
          (((uf.find e.2.1).2.find e.2.2).2.parent.count
            (UnionFind.rootD uf.parent e.2.2) : Int) < ms) →
        (pass2Step ms uf e).num_sets = uf.num_sets ∧
        (∀ x, UnionFind.rootD (pass2Step ms uf e).parent x =
          UnionFind.rootD uf.parent x) ∧
        UnionFind.rootD (pass2Step ms uf e).parent e.2.1 ≠
          UnionFind.rootD (pass2Step ms uf e).parent e.2.2)) := by
  obtain ⟨ha1, ha2, ha3, ha4, ha5, ha6, ha7⟩ := UnionFind.find_spec hW hu
  have hv' : e.2.2 < (uf.find e.2.1).2.parent.length := by omega
  obtain ⟨hb1, hb2, hb3, hb4, hb5, hb6, hb7⟩ := UnionFind.find_spec ha7 hv'
  set uf2 := ((uf.find e.2.1).2.find e.2.2).2 with huf2
  have hru : (uf.find e.2.1).1 = UnionFind.rootD uf.parent e.2.1 := ha1
  have hrv : ((uf.find e.2.1).2.find e.2.2).1 =
      UnionFind.rootD uf.parent e.2.2 := by rw [hb1, ha6]
  have hlen2 : uf2.parent.length = uf.parent.length := by rw [hb2, ha2]
  have hns2 : uf2.num_sets = uf.num_sets := by rw [hb4, ha4]
  have hrootD2 : ∀ x, UnionFind.rootD uf2.parent x = UnionFind.rootD uf.parent x := by
    intro x
    rw [hb6 x, ha6 x]
  have hunfold : pass2Step ms uf e =
      (if (uf.find e.2.1).1 ≠ ((uf.find e.2.1).2.find e.2.2).1 then
        if ((uf2.parent.count (uf.find e.2.1).1 : Int) < ms ∨
            (uf2.parent.count ((uf.find e.2.1).2.find e.2.2).1 : Int) < ms) then
          (uf2.union (uf.find e.2.1).1 ((uf.find e.2.1).2.find e.2.2).1).1
        else uf2
      else uf2) := rfl
  rw [hunfold, hru, hrv]
  set ru := UnionFind.rootD uf.parent e.2.1 with hru_def
  set rv := UnionFind.rootD uf.parent e.2.2 with hrv_def
  by_cases hrr : ru = rv
  · rw [if_neg (by simpa using hrr)]
    exact ⟨hb7, hlen2, fun _ => ⟨hns2, hrootD2⟩, fun hcon => absurd hrr hcon⟩
  · rw [if_pos (by simpa using hrr)]
    by_cases hcond : ((uf2.parent.count ru : Int) < ms ∨
        (uf2.parent.count rv : Int) < ms)
    · rw [if_pos hcond]
      have hruL : ru < uf2.parent.length := by
        rw [hlen2]
        exact UnionFind.rootD_lt hW.pinv hu
      have hrvL : rv < uf2.parent.length := by
        rw [hlen2]
        exact UnionFind.rootD_lt hW.pinv hv
      have hru2 : UnionFind.rootD uf2.parent ru = ru := by
        rw [hrootD2]
        exact UnionFind.rootD_of_root hW.pinv (UnionFind.rootD_isRoot hW.pinv hu)
      have hrv2 : UnionFind.rootD uf2.parent rv = rv := by
        rw [hrootD2]
        exact UnionFind.rootD_of_root hW.pinv (UnionFind.rootD_isRoot hW.pinv hv)
      obtain ⟨-, hc2, hc3, -, hc5⟩ := UnionFind.union_spec hb7 hruL hrvL
      have hrr2 : UnionFind.rootD uf2.parent ru ≠ UnionFind.rootD uf2.parent rv := by
        rw [hru2, hrv2]
        exact hrr
      obtain ⟨hd1, w0, hw0, hd3⟩ := hc5 hrr2
      simp only [hru2, hrv2] at hw0 hd3
      set q := (uf2.union ru rv).1 with hqdef
      have hrootu : UnionFind.rootD q.parent e.2.1 = w0 := by
        rw [hd3 e.2.1, hrootD2, if_pos (Or.inl rfl)]
      have hrootv : UnionFind.rootD q.parent e.2.2 = w0 := by
        rw [hd3 e.2.2, hrootD2, if_pos (Or.inr rfl)]
      refine ⟨hc3, by rw [hc2, hlen2], fun hcon => absurd hcon hrr,
        fun _ => ⟨fun _ => ⟨by rw [hd1, hns2], by rw [hrootu, hrootv], ?_⟩,
          fun hcon => absurd hcond hcon⟩⟩
      intro x hx1 hx2
      rw [hd3 x, hrootD2, if_neg (fun h => h.elim hx1 hx2)]
    · rw [if_neg hcond]
      refine ⟨hb7, hlen2, fun hcon => absurd hcon hrr,
        fun _ => ⟨fun hcon => absurd hcon hcond, fun _ => ⟨hns2, hrootD2, ?_⟩⟩⟩
      rw [hrootD2, hrootD2]
      exact hrr

/-- **C2** (corrected).  Pass 2 runs only when `min_size > 0` (conjunct 1),
and for each edge with distinct roots the components are merged
unconditionally, irrespective of edge weight, exactly when either of the
compared sizes is strictly below `min_size` (conjunct 2).  Contrary to the
original claim, the compared sizes are **not** the live component sizes: they
are the parent-pointer counts `np.sum(uf.parent == root)`, which undercount a
component whenever some member's parent pointer has not been refreshed by
path compression (see `claim_C2_counterexample`). -/
theorem claim_C2 :
    (∀ (ms : Int) (edges : List (Int × Nat × Nat)) (uf : UnionFind),
      ms ≤ 0 → pass2 ms edges uf = uf) ∧
    (∀ (ms : Int) (uf : UnionFind) (e : Int × Nat × Nat),
      UnionFind.WF uf → e.2.1 < uf.parent.length → e.2.2 < uf.parent.length →
      (UnionFind.rootD uf.parent e.2.1 = UnionFind.rootD uf.parent e.2.2 →
        (pass2Step ms uf e).num_sets = uf.num_sets ∧
        (∀ x, UnionFind.rootD (pass2Step ms uf e).parent x =
          UnionFind.rootD uf.parent x)) ∧
      (UnionFind.rootD uf.parent e.2.1 ≠ UnionFind.rootD uf.parent e.2.2 →
        (((((uf.find e.2.1).2.find e.2.2).2.parent.count
              (UnionFind.rootD uf.parent e.2.1) : Int) < ms ∨
          (((uf.find e.2.1).2.find e.2.2).2.parent.count
              (UnionFind.rootD uf.parent e.2.2) : Int) < ms) →
          (pass2Step ms uf e).num_sets = uf.num_sets - 1 ∧
          UnionFind.rootD (pass2Step ms uf e).parent e.2.1 =
            UnionFind.rootD (pass2Step ms uf e).parent e.2.2 ∧
          (∀ x, UnionFind.rootD uf.parent x ≠ UnionFind.rootD uf.parent e.2.1 →
            UnionFind.rootD uf.parent x ≠ UnionFind.rootD uf.parent e.2.2 →
            UnionFind.rootD (pass2Step ms uf e).parent x =
              UnionFind.rootD uf.parent x)) ∧
        (¬((((uf.find e.2.1).2.find e.2.2).2.parent.count
              (UnionFind.rootD uf.parent e.2.1) : Int) < ms ∨
            (((uf.find e.2.1).2.find e.2.2).2.parent.count
              (UnionFind.rootD uf.parent e.2.2) : Int) < ms) →
          (pass2Step ms uf e).num_sets = uf.num_sets ∧
          (∀ x, UnionFind.rootD (pass2Step ms uf e).parent x =
            UnionFind.rootD uf.parent x) ∧
          UnionFind.rootD (pass2Step ms uf e).parent e.2.1 ≠
            UnionFind.rootD (pass2Step ms uf e).parent e.2.2))) := by
  constructor
  · intro ms edges uf hms
    unfold pass2
    rw [if_neg (by omega)]
  · intro ms uf e hW hu hv
    obtain ⟨-, -, h3, h4⟩ := pass2Step_spec ms uf e hW hu hv
    exact ⟨h3, h4⟩

/-- Witness for C2: `min_size = 0` skips the pass, and a concrete undersized
merge at `UnionFind(2)`, edge `(0, 0, 1)`, `min_size = 5`. -/
theorem claim_C2_witness :
    pass2 0 [] (UnionFind.init 1) = UnionFind.init 1 ∧
    (pass2Step 5 (UnionFind.init 2) (0, 0, 1)).num_sets =
      (UnionFind.init 2).num_sets - 1 := by
  refine ⟨claim_C2.1 0 [] (UnionFind.init 1) (by decide), ?_⟩
  have h := claim_C2.2 5 (UnionFind.init 2) (0, 0, 1) (UnionFind.init_WF 2)
    (by decide) (by decide)
  exact ((h.2 (by decide)).1 (by decide)).1

/-- Counterexample to C2 as stated.  Input: the 1×14 grayscale image
`[0,0,0,0,0,0,0,3,3,3,5,5,6,6]`, `k = 2`, `min_size = 7` (see `cImg`).
At Pass 2's final edge `(9, 6, 7)` the two components have live sizes 7 and 7
(each `≥ min_size`, so under the claim's reading nothing may be merged:
`¬(7 < 7 ∨ 7 < 7)`), yet the implementation merges them (`num_sets` drops
from 2 to 1), because the parent-pointer count of the right component is only
5 — pixels 8 and 9 still point at the absorbed root 7.  The spec-faithful
Pass 2 (`pass2Spec`, live sizes) ends with 2 components; the code ends with 1. -/
theorem claim_C2_counterexample :
    cUf12.num_sets = 2 ∧
    (cUf12.find 6).1 = 0 ∧
    ((cUf12.find 6).2.find 7).1 = 10 ∧
    liveSize ((cUf12.find 6).2.find 7).2 0 = 7 ∧
    liveSize ((cUf12.find 6).2.find 7).2 10 = 7 ∧
    ((cUf12.find 6).2.find 7).2.parent.count 10 = 5 ∧
    ¬((7 : Int) < 7 ∨ (7 : Int) < 7) ∧
    (pass2Step 7 cUf12 (9, 6, 7)).num_sets = 1 ∧
    (pass2 7 cEdges cUf1).num_sets = 1 ∧
    (pass2Spec 7 cEdges cUf1).num_sets = 2 := by
  decide

namespace UnionFind

/-! ### Unconditional structural facts (no well-formedness needed) -/

theorem findAux_length (p : List Nat) :
    ∀ fuel i, (findAux fuel p i).2.length = p.length := by
  intro fuel
  induction fuel with
  | zero => intro i; rfl
  | succ fuel ih =>
    intro i
    by_cases h : p.getD i i = i
    · have : findAux (fuel + 1) p i = (i, p) := by
        simp only [findAux]
        rw [if_pos h]
      rw [this]
    · have : findAux (fuel + 1) p i =
          ((findAux fuel p (p.getD i i)).1,
            (findAux fuel p (p.getD i i)).2.set i (findAux fuel p (p.getD i i)).1) := by
        simp only [findAux]
        rw [if_neg h]
      rw [this]
      simp only [List.length_set]
      exact ih (p.getD i i)

theorem find_parent_length (uf : UnionFind) (i : Nat) :
    (uf.find i).2.parent.length = uf.parent.length :=
  findAux_length uf.parent uf.parent.length i

theorem find_num_sets (uf : UnionFind) (i : Nat) :
    (uf.find i).2.num_sets = uf.num_sets := rfl

theorem union_parent_length (uf : UnionFind) (i j : Nat) :
    (uf.union i j).1.parent.length = uf.parent.length := by
  have h : uf.union i j =
      (if (uf.find i).1 ≠ ((uf.find i).2.find j).1 then
        if ((uf.find i).2.find j).2.rank.getD (uf.find i).1 0 <
            ((uf.find i).2.find j).2.rank.getD ((uf.find i).2.find j).1 0 then
          ({ ((uf.find i).2.find j).2 with
              parent := ((uf.find i).2.find j).2.parent.set (uf.find i).1
                ((uf.find i).2.find j).1,
              num_sets := ((uf.find i).2.find j).2.num_sets - 1 }, none)
        else if ((uf.find i).2.find j).2.rank.getD (uf.find i).1 0 >
            ((uf.find i).2.find j).2.rank.getD ((uf.find i).2.find j).1 0 then
          ({ ((uf.find i).2.find j).2 with
              parent := ((uf.find i).2.find j).2.parent.set
                ((uf.find i).2.find j).1 (uf.find i).1,
              num_sets := ((uf.find i).2.find j).2.num_sets - 1 }, none)
        else
          ({ ((uf.find i).2.find j).2 with
              parent := ((uf.find i).2.find j).2.parent.set
                ((uf.find i).2.find j).1 (uf.find i).1,
              rank := ((uf.find i).2.find j).2.rank.set (uf.find i).1
                (((uf.find i).2.find j).2.rank.getD (uf.find i).1 0 + 1),
              num_sets := ((uf.find i).2.find j).2.num_sets - 1 }, none)
      else (((uf.find i).2.find j).2, none)) := rfl
  rw [h]
  split
  · split
    · simp [List.length_set, find_parent_length]
    · split
      · simp [List.length_set, find_parent_length]
      · simp [List.length_set, find_parent_length]
  · simp [find_parent_length]

end UnionFind

/-- Fold preservation of an invariant. -/
theorem foldl_preserve {α β : Type} (f : β → α → β) (P : β → Prop)
    (h : ∀ b a, P b → P (f b a)) : ∀ (l : List α) (b : β), P b → P (l.foldl f b) := by
  intro l
  induction l with
  | nil => intro b hb; exact hb
  | cons a l ih =>
    intro b hb
    exact ih (f b a) (h b a hb)

theorem pass1Step_parent_length (k : Int) (st : UnionFind × List Int)
    (e : Int × Nat × Nat) :
    (pass1Step k st e).1.parent.length = st.1.parent.length := by
  have h : pass1Step k st e =
      (if (st.1.find e.2.1).1 ≠ ((st.1.find e.2.1).2.find e.2.2).1 then
        if e.1 ≤ min (st.2.getD (st.1.find e.2.1).1 0)
            (st.2.getD ((st.1.find e.2.1).2.find e.2.2).1 0) then
          (((((st.1.find e.2.1).2.find e.2.2).2.union (st.1.find e.2.1).1
              ((st.1.find e.2.1).2.find e.2.2).1).1.find (st.1.find e.2.1).1).2,
            st.2.set (((((st.1.find e.2.1).2.find e.2.2).2.union (st.1.find e.2.1).1
              ((st.1.find e.2.1).2.find e.2.2).1).1.find (st.1.find e.2.1).1).1)
              (e.1 + k))
        else (((st.1.find e.2.1).2.find e.2.2).2, st.2)
      else (((st.1.find e.2.1).2.find e.2.2).2, st.2)) := rfl
  rw [h]
  split
  · split
    · simp [UnionFind.find_parent_length, UnionFind.union_parent_length]
    · simp [UnionFind.find_parent_length]
  · simp [UnionFind.find_parent_length]

theorem pass2Step_parent_length (ms : Int) (uf : UnionFind)
    (e : Int × Nat × Nat) :
    (pass2Step ms uf e).parent.length = uf.parent.length := by
  have h : pass2Step ms uf e =
      (if (uf.find e.2.1).1 ≠ ((uf.find e.2.1).2.find e.2.2).1 then
        if ((((uf.find e.2.1).2.find e.2.2).2.parent.count (uf.find e.2.1).1 : Int) < ms ∨
            (((uf.find e.2.1).2.find e.2.2).2.parent.count
              ((uf.find e.2.1).2.find e.2.2).1 : Int) < ms) then
          (((uf.find e.2.1).2.find e.2.2).2.union (uf.find e.2.1).1
            ((uf.find e.2.1).2.find e.2.2).1).1
        else ((uf.find e.2.1).2.find e.2.2).2
      else ((uf.find e.2.1).2.find e.2.2).2) := rfl
  rw [h]
  split
  · split
    · simp [UnionFind.find_parent_length, UnionFind.union_parent_length]
    · simp [UnionFind.find_parent_length]
  · simp [UnionFind.find_parent_length]

theorem pass1_parent_length (k : Int) (E : List (Int × Nat × Nat)) (n : Nat) :
    (pass1 k E n).1.parent.length = n := by
  unfold pass1
  refine foldl_preserve _
    (fun st : UnionFind × List Int => st.1.parent.length = n) ?_ E _ ?_
  · intro b a hb
    rw [pass1Step_parent_length]
    exact hb
  · exact UnionFind.init_parent_length n

theorem pass2_parent_length (ms : Int) (E : List (Int × Nat × Nat))
    (uf : UnionFind) : (pass2 ms E uf).parent.length = uf.parent.length := by
  unfold pass2
  split
  · refine foldl_preserve _
      (fun u : UnionFind => u.parent.length = uf.parent.length) ?_ E uf rfl
    intro b a hb
    rw [pass2Step_parent_length]
    exact hb
  · rfl

theorem write_length (s : Store) (bid y x : Nat) (v : List Int) :
    (s.write bid y x v).length = s.length := by
  simp [Store.write]

theorem colorStep_preserve (rng : Nat → List Int) (oid y x width : Nat)
    (st : UnionFind × List (Nat × List Int) × Store) :
    (colorStep rng oid y x width st).2.2.length = st.2.2.length ∧
    (colorStep rng oid y x width st).1.parent.length = st.1.parent.length := by
  rcases hm : st.2.1.lookup (st.1.find (y * width + x)).1 with _ | c
  · have h : colorStep rng oid y x width st =
        ((st.1.find (y * width + x)).2,
          st.2.1 ++ [((st.1.find (y * width + x)).1, rng st.2.1.length)],
          st.2.2.write oid y x (rng st.2.1.length)) := by
      simp only [colorStep, hm]
    rw [h]
    exact ⟨write_length _ _ _ _ _, UnionFind.find_parent_length _ _⟩
  · have h : colorStep rng oid y x width st =
        ((st.1.find (y * width + x)).2, st.2.1, st.2.2.write oid y x c) := by
      simp only [colorStep, hm]
    rw [h]
    exact ⟨write_length _ _ _ _ _, UnionFind.find_parent_length _ _⟩

/-- **C3** (corrected).  The entry point performs no input validation at all:
for *every* input — malformed or not — it returns a complete, fully-formed
result (a store with the two freshly allocated buffers, and a forest over
`height*width` elements); no typed error is raised before graph construction
or anywhere else.  In particular a zero-sized buffer yields a normal result
with `num_sets = 0`, and a non-positive `k` (here `k = -1` on a 1×2 zero
image) yields a normal full result with `num_sets = 2`. -/
theorem claim_C3 :
    (∀ (gauss : Image → Int → Image) (s : Store) (bid : Nat)
        (k ms sigma : Int) (rng : Nat → List Int),
      (felzenszwalb_huttenlocher gauss s bid k ms sigma rng).1.length =
        s.length + 2 ∧
      (felzenszwalb_huttenlocher gauss s bid k ms sigma rng).2.2.parent.length =
        (s.bufAt bid).height * (s.bufAt bid).width) ∧
    (felzenszwalb_huttenlocher (fun i _ => i) [Image.ofGray []] 0 10 0 0
      (fun _ => [0])).2.1 = 0 ∧
    (felzenszwalb_huttenlocher (fun i _ => i) [Image.ofGray [[0, 0]]] 0 (-1) 0 0
      (fun _ => [0])).2.1 = 2 := by
  refine ⟨?_, by decide, by decide⟩
  intro gauss s bid k ms sigma rng
  set img := s.bufAt bid with himg
  set sm := (if sigma > 0 then gauss img sigma else img) with hsm
  set E := create_graph sm with hE
  set N := img.height * img.width with hN
  set UF0 := (pass2 ms E (pass1 k E N).1) with hUF0
  set S2 := ((s.alloc sm).alloc (zerosLike img)) with hS2
  set OID := (s.alloc sm).length with hOID
  have hfh : felzenszwalb_huttenlocher gauss s bid k ms sigma rng =
      (((List.range img.height).foldl
          (fun st y => (List.range img.width).foldl
            (fun st x => colorStep rng OID y x img.width st) st)
          (UF0, [], S2)).2.2,
       ((List.range img.height).foldl
          (fun st y => (List.range img.width).foldl
            (fun st x => colorStep rng OID y x img.width st) st)
          (UF0, [], S2)).1.num_sets,
       ((List.range img.height).foldl
          (fun st y => (List.range img.width).foldl
            (fun st x => colorStep rng OID y x img.width st) st)
          (UF0, [], S2)).1) := rfl
  have hP : ∀ (l : List Nat) (st : UnionFind × List (Nat × List Int) × Store),
      (st.2.2.length = s.length + 2 ∧ st.1.parent.length = N) →
      ((l.foldl (fun st y => (List.range img.width).foldl
          (fun st x => colorStep rng OID y x img.width st) st) st).2.2.length =
        s.length + 2 ∧
       (l.foldl (fun st y => (List.range img.width).foldl
          (fun st x => colorStep rng OID y x img.width st) st) st).1.parent.length =
        N) := by
    intro l st hst
    refine foldl_preserve _
      (fun st : UnionFind × List (Nat × List Int) × Store =>
        st.2.2.length = s.length + 2 ∧ st.1.parent.length = N)
      ?_ l st hst
    intro b y hb
    refine foldl_preserve _
      (fun st : UnionFind × List (Nat × List Int) × Store =>
        st.2.2.length = s.length + 2 ∧ st.1.parent.length = N)
      ?_ (List.range img.width) b hb
    intro b2 x hb2
    obtain ⟨hc1, hc2⟩ := colorStep_preserve rng OID y x img.width b2
    exact ⟨hc1.trans hb2.1, hc2.trans hb2.2⟩
  have hinit : S2.length = s.length + 2 := by
    rw [hS2]
    simp [Store.alloc]
  have hufinit : UF0.parent.length = N := by
    rw [hUF0, pass2_parent_length, pass1_parent_length]
  have h := hP (List.range img.height) (UF0, [], S2) ⟨hinit, hufinit⟩
  rw [hfh]
  exact h

/-- Counterexample to C3 as stated: the claim requires that a non-positive
`k` fail fast with a typed error, with no result returned, before graph
construction.  The call with `k = -1` on the 1×2 zero image instead returns a
complete result: a segmented-image store of 3 buffers and `num_sets = 2`; the
source of `felzenszwalb_huttenlocher` contains no validation or `raise` at
all. -/
theorem claim_C3_counterexample :
    (felzenszwalb_huttenlocher (fun i _ => i) [Image.ofGray [[0, 0]]] 0 (-1) 0 0
      (fun _ => [0])).2.1 = 2 ∧
    (felzenszwalb_huttenlocher (fun i _ => i) [Image.ofGray [[0, 0]]] 0 (-1) 0 0
      (fun _ => [0])).1.length = 3 ∧
    (felzenszwalb_huttenlocher (fun i _ => i) [Image.ofGray [[0, 0]]] 0 (-1) 0 0
      (fun _ => [0])).2.2.num_sets = 2 := by
  refine ⟨by decide, ?_, by decide⟩
  decide

/-! ### Determinism: the random color source never reaches the forest -/

/-- Relational fold lemma. -/
theorem foldl_rel {α β : Type} (f g : β → α → β) (R : β → β → Prop)
    (h : ∀ b1 b2 a, R b1 b2 → R (f b1 a) (g b2 a)) :
    ∀ (l : List α) (b1 b2 : β), R b1 b2 → R (l.foldl f b1) (l.foldl g b2) := by
  intro l
  induction l with
  | nil => intro b1 b2 hb; exact hb
  | cons a l ih =>
    intro b1 b2 hb
    exact ih (f b1 a) (g b2 a) (h b1 b2 a hb)

/-- The union-find component of one coloring step does not depend on the
color dictionary or the random source: both branches return the state after
the same `find`. -/
theorem colorStep_fst (rng1 rng2 : Nat → List Int) (oid y x width : Nat)
    (st1 st2 : UnionFind × List (Nat × List Int) × Store) (h : st1.1 = st2.1) :
    (colorStep rng1 oid y x width st1).1 = (colorStep rng2 oid y x width st2).1 := by
  have e1 : (colorStep rng1 oid y x width st1).1 = (st1.1.find (y * width + x)).2 := by
    rcases hm : st1.2.1.lookup (st1.1.find (y * width + x)).1 with _ | c <;>
      simp only [colorStep, hm]
  have e2 : (colorStep rng2 oid y x width st2).1 = (st2.1.find (y * width + x)).2 := by
    rcases hm : st2.2.1.lookup (st2.1.find (y * width + x)).1 with _ | c <;>
      simp only [colorStep, hm]
  rw [e1, e2, h]

/-- **C8** (confirmed).  With smoothing disabled (`sigma = 0`), two runs of
the segmentation entry point on an identical input buffer and identical
parameters, differing only in the random color source, produce identical
`num_sets`, identical `component_sizes` mappings, and in fact an identical
final forest — the random values influence only the painted colors. -/
theorem claim_C8 (gauss : Image → Int → Image) (s : Store) (bid : Nat)
    (k ms : Int) (rng1 rng2 : Nat → List Int) :
    (felzenszwalb_huttenlocher gauss s bid k ms 0 rng1).2.1 =
      (felzenszwalb_huttenlocher gauss s bid k ms 0 rng2).2.1 ∧
    (felzenszwalb_huttenlocher gauss s bid k ms 0 rng1).2.2.get_component_sizes =
      (felzenszwalb_huttenlocher gauss s bid k ms 0 rng2).2.2.get_component_sizes ∧
    (felzenszwalb_huttenlocher gauss s bid k ms 0 rng1).2.2 =
      (felzenszwalb_huttenlocher gauss s bid k ms 0 rng2).2.2 := by
  set img := s.bufAt bid with himg
  set sm := (if (0 : Int) > 0 then gauss img 0 else img) with hsm
  set E := create_graph sm with hE
  set N := img.height * img.width with hN
  set UF0 := (pass2 ms E (pass1 k E N).1) with hUF0
  set S2 := ((s.alloc sm).alloc (zerosLike img)) with hS2
  set OID := (s.alloc sm).length with hOID
  have hfh : ∀ rng : Nat → List Int,
      (felzenszwalb_huttenlocher gauss s bid k ms 0 rng).2.2 =
      ((List.range img.height).foldl
        (fun st y => (List.range img.width).foldl
          (fun st x => colorStep rng OID y x img.width st) st)
        (UF0, [], S2)).1 := fun _ => rfl
  have hns : ∀ rng : Nat → List Int,
      (felzenszwalb_huttenlocher gauss s bid k ms 0 rng).2.1 =
      ((List.range img.height).foldl
        (fun st y => (List.range img.width).foldl
          (fun st x => colorStep rng OID y x img.width st) st)
        (UF0, [], S2)).1.num_sets := fun _ => rfl
  have key : ((List.range img.height).foldl
        (fun st y => (List.range img.width).foldl
          (fun st x => colorStep rng1 OID y x img.width st) st)
        (UF0, [], S2)).1 =
      ((List.range img.height).foldl
        (fun st y => (List.range img.width).foldl
          (fun st x => colorStep rng2 OID y x img.width st) st)
        (UF0, [], S2)).1 := by
    refine foldl_rel _ _
      (fun st1 st2 : UnionFind × List (Nat × List Int) × Store => st1.1 = st2.1)
      ?_ (List.range img.height) _ _ rfl
    intro b1 b2 y hb
    refine foldl_rel _ _
      (fun st1 st2 : UnionFind × List (Nat × List Int) × Store => st1.1 = st2.1)
      ?_ (List.range img.width) b1 b2 hb
    intro c1 c2 x hc
    exact colorStep_fst rng1 rng2 OID y x img.width c1 c2 hc
  have huf : (felzenszwalb_huttenlocher gauss s bid k ms 0 rng1).2.2 =
      (felzenszwalb_huttenlocher gauss s bid k ms 0 rng2).2.2 := by
    rw [hfh rng1, hfh rng2, key]
  refine ⟨?_, ?_, huf⟩
  · rw [hns rng1, hns rng2, key]
  · rw [huf]

/-! ### Frame property: only the freshly allocated output buffer is written -/

theorem getD_write_ne (s : Store) (bid y x : Nat) (v : List Int) {j : Nat}
    (h : bid ≠ j) : (s.write bid y x v).getD j default = s.getD j default := by
  unfold Store.write
  exact UnionFind.getD_set_other h

theorem colorStep_frame (rng : Nat → List Int) (oid y x width : Nat)
    (st : UnionFind × List (Nat × List Int) × Store) {j : Nat} (h : oid ≠ j) :
    (colorStep rng oid y x width st).2.2.getD j default =
      st.2.2.getD j default := by
  rcases hm : st.2.1.lookup (st.1.find (y * width + x)).1 with _ | c <;>
    simp only [colorStep, hm] <;> exact getD_write_ne _ _ _ _ _ h

/-- **C10** (confirmed).  The segmentation entry point never writes into any
pre-existing buffer: the smoothed image (or the `sigma = 0` copy) and the
zero-initialized output are fresh allocations at the end of the store, and
every pixel write targets the fresh output buffer.  Hence every buffer that
existed before the call — in particular the caller's input buffer — holds its
original contents after the call returns. -/
theorem claim_C10 (gauss : Image → Int → Image) (s : Store) (bid : Nat)
    (k ms sigma : Int) (rng : Nat → List Int) (j : Nat) (hj : j < s.length) :
    (felzenszwalb_huttenlocher gauss s bid k ms sigma rng).1.getD j default =
      s.getD j default := by
  set img := s.bufAt bid with himg
  set sm := (if sigma > 0 then gauss img sigma else img) with hsm
  set E := create_graph sm with hE
  set N := img.height * img.width with hN
  set UF0 := (pass2 ms E (pass1 k E N).1) with hUF0
  set S2 := ((s.alloc sm).alloc (zerosLike img)) with hS2
  set OID := (s.alloc sm).length with hOID
  have hfh : (felzenszwalb_huttenlocher gauss s bid k ms sigma rng).1 =
      ((List.range img.height).foldl
        (fun st y => (List.range img.width).foldl
          (fun st x => colorStep rng OID y x img.width st) st)
        (UF0, [], S2)).2.2 := rfl
  have hOIDj : OID ≠ j := by
    rw [hOID]
    simp only [Store.alloc, List.length_append, List.length_singleton]
    omega
  have hP : ∀ (l : List Nat) (st : UnionFind × List (Nat × List Int) × Store),
      st.2.2.getD j default = s.getD j default →
      (l.foldl (fun st y => (List.range img.width).foldl
          (fun st x => colorStep rng OID y x img.width st) st) st).2.2.getD j
        default = s.getD j default := by
    intro l st hst
    refine foldl_preserve _
      (fun st : UnionFind × List (Nat × List Int) × Store =>
        st.2.2.getD j default = s.getD j default) ?_ l st hst
    intro b y hb
    refine foldl_preserve _
      (fun st : UnionFind × List (Nat × List Int) × Store =>
        st.2.2.getD j default = s.getD j default)
      ?_ (List.range img.width) b hb
    intro b2 x hb2
    rw [colorStep_frame rng OID y x img.width b2 hOIDj]
    exact hb2
  have hinit : S2.getD j default = s.getD j default := by
    rw [hS2]
    simp only [Store.alloc]
    rw [List.getD_eq_getElem?_getD, List.getD_eq_getElem?_getD,
      List.getElem?_append, if_pos (by simp [List.length_append]; omega),
      List.getElem?_append, if_pos hj]
  rw [hfh]
  exact hP (List.range img.height) (UF0, [], S2) hinit

/-- Witness for C10 at a concrete one-buffer store. -/
theorem claim_C10_witness :
    (felzenszwalb_huttenlocher (fun i _ => i) [Image.ofGray [[1, 2]]] 0 3 0 0
      (fun _ => [0])).1.getD 0 default =
      ([Image.ofGray [[1, 2]]] : Store).getD 0 default :=
  claim_C10 (fun i _ => i) [Image.ofGray [[1, 2]]] 0 3 0 0 (fun _ => [0]) 0
    (by decide)

/-! ### Membership in the built graph -/

theorem mem_pySort {α : Type} {le : α → α → Bool} {l : List α} {c : α} :
    c ∈ pySort le l ↔ c ∈ l :=
  (pySort_perm le l).mem_iff

theorem mem_if_singleton {α : Type} {c : Prop} [Decidable c] {a b : α} :
    (a ∈ if c then [b] else []) ↔ c ∧ a = b := by
  split
  · rename_i h
    simp [h]
  · rename_i h
    simp [h]

theorem mem_create_graph (img : Image) (e : Int × Nat × Nat) :
    e ∈ create_graph img ↔ ∃ y x, y < img.height ∧ x < img.width ∧
      ((x < img.width - 1 ∧
        e = (pixdiff img y x y (x + 1), y * img.width + x,
          y * img.width + (x + 1))) ∨
       (y < img.height - 1 ∧
        e = (pixdiff img y x (y + 1) x, y * img.width + x,
          (y + 1) * img.width + x))) := by
  unfold create_graph
  rw [mem_pySort]
  simp only [List.mem_flatMap, List.mem_range, List.mem_append,
    mem_if_singleton]
  constructor
  · rintro ⟨y, hy, x, hx, h⟩
    exact ⟨y, x, hy, hx, h⟩
  · rintro ⟨y, x, hy, hx, h⟩
    exact ⟨y, hy, x, hx, h⟩

/-- **C4** (confirmed).  For every adjacent pixel pair the graph builder emits
an edge whose weight is `pixdiff` — the sum of squared per-channel differences
for 3-D buffers, the squared scalar difference for 2-D buffers — and every
edge of the built graph is of that form (conjuncts 1–3).  In the concrete
scenario (1×4 single-channel image `[0, 0, 255, 255]`, `k = 10`,
`min_size = 0`, `sigma = 0`), the boundary edge has weight `255²` and the
segmentation yields exactly 2 segments, split between indices 1 and 2
(conjuncts 4–7). -/
theorem claim_C4 :
    (∀ (img : Image) (y x : Nat), y < img.height → x + 1 < img.width →
      (pixdiff img y x y (x + 1), y * img.width + x, y * img.width + (x + 1)) ∈
        create_graph img) ∧
    (∀ (img : Image) (y x : Nat), y + 1 < img.height → x < img.width →
      (pixdiff img y x (y + 1) x, y * img.width + x, (y + 1) * img.width + x) ∈
        create_graph img) ∧
    (∀ (img : Image) (e : Int × Nat × Nat), e ∈ create_graph img →
      ∃ y x, y < img.height ∧ x < img.width ∧
        ((x + 1 < img.width ∧
          e = (pixdiff img y x y (x + 1), y * img.width + x,
            y * img.width + (x + 1))) ∨
         (y + 1 < img.height ∧
          e = (pixdiff img y x (y + 1) x, y * img.width + x,
            (y + 1) * img.width + x)))) ∧
    (((255 : Int) ^ 2, 1, 2) ∈ create_graph (Image.ofGray [[0, 0, 255, 255]])) ∧
    (felzenszwalb_huttenlocher (fun i _ => i) [Image.ofGray [[0, 0, 255, 255]]]
      0 10 0 0 (fun _ => [0])).2.1 = 2 ∧
    (((felzenszwalb_huttenlocher (fun i _ => i) [Image.ofGray [[0, 0, 255, 255]]]
        0 10 0 0 (fun _ => [0])).2.2.find 0).1 =
      ((felzenszwalb_huttenlocher (fun i _ => i) [Image.ofGray [[0, 0, 255, 255]]]
        0 10 0 0 (fun _ => [0])).2.2.find 1).1 ∧
     ((felzenszwalb_huttenlocher (fun i _ => i) [Image.ofGray [[0, 0, 255, 255]]]
        0 10 0 0 (fun _ => [0])).2.2.find 2).1 =
      ((felzenszwalb_huttenlocher (fun i _ => i) [Image.ofGray [[0, 0, 255, 255]]]
        0 10 0 0 (fun _ => [0])).2.2.find 3).1 ∧
     ((felzenszwalb_huttenlocher (fun i _ => i) [Image.ofGray [[0, 0, 255, 255]]]
        0 10 0 0 (fun _ => [0])).2.2.find 1).1 ≠
      ((felzenszwalb_huttenlocher (fun i _ => i) [Image.ofGray [[0, 0, 255, 255]]]
        0 10 0 0 (fun _ => [0])).2.2.find 2).1) := by
  refine ⟨?_, ?_, ?_, by decide, by decide, by decide, by decide, by decide⟩
  · intro img y x hy hx
    rw [mem_create_graph]
    exact ⟨y, x, hy, by omega, Or.inl ⟨by omega, rfl⟩⟩
  · intro img y x hy hx
    rw [mem_create_graph]
    exact ⟨y, x, by omega, hx, Or.inr ⟨by omega, rfl⟩⟩
  · intro img e he
    rw [mem_create_graph] at he
    obtain ⟨y, x, hy, hx, h⟩ := he
    refine ⟨y, x, hy, hx, ?_⟩
    rcases h with ⟨hc, rfl⟩ | ⟨hc, rfl⟩
    · exact Or.inl ⟨by omega, rfl⟩
    · exact Or.inr ⟨by omega, rfl⟩

/-- Witness for C4 at a concrete 2×2 image and pixel pair. -/
theorem claim_C4_witness :
    (pixdiff (Image.ofGray [[1, 5], [2, 7]]) 0 0 0 1, 0, 1) ∈
      create_graph (Image.ofGray [[1, 5], [2, 7]]) ∧
    (pixdiff (Image.ofGray [[1, 5], [2, 7]]) 0 0 1 0, 0, 2) ∈
      create_graph (Image.ofGray [[1, 5], [2, 7]]) := by
  exact ⟨claim_C4.1 (Image.ofGray [[1, 5], [2, 7]]) 0 0 (by decide) (by decide),
    claim_C4.2.1 (Image.ofGray [[1, 5], [2, 7]]) 0 0 (by decide) (by decide)⟩

/-! ### Ranking: size-descending stable sort with root-ascending ties -/

/-- The `(root, size)` pairs of `get_component_sizes` come out with strictly
ascending roots (`np.unique` sorts, and the roots are distinct). -/
theorem gcs_roots_ascending (uf : UnionFind) :
    (uf.get_component_sizes).Pairwise fun a b => a.1 < b.1 := by
  unfold UnionFind.get_component_sizes
  rw [List.pairwise_map]
  have h1 := @pairwise_pySort Nat (fun a b : Nat => decide (a ≤ b))
    (fun a b c hab hbc => by
      simp only [decide_eq_true_eq] at *
      omega)
    (fun a b => by
      simp only [Bool.or_eq_true, decide_eq_true_eq]
      omega)
    (UnionFind.componentRoots uf).1.dedup
  have h2 : (pySort (fun a b : Nat => decide (a ≤ b))
      (UnionFind.componentRoots uf).1.dedup).Nodup :=
    (pySort_perm _ _).symm.nodup (List.nodup_dedup _)
  refine (h1.and h2).imp ?_
  intro a b hab
  simp only [decide_eq_true_eq] at hab
  omega

/-- Inserting an element whose root is below every root in the sorted-so-far
list keeps the combined order "size strictly descending, ties by ascending
root" — this is exactly the stability of Python's `sorted` with
`key=size, reverse=True` applied to a root-ascending input. -/
theorem insertSorted_bySizeDesc_pairwise (p : Nat × Nat) :
    ∀ T : List (Nat × Nat),
      T.Pairwise (fun a b => b.2 < a.2 ∨ (a.2 = b.2 ∧ a.1 < b.1)) →
      (∀ b ∈ T, p.1 < b.1) →
      (insertSorted UnionFind.bySizeDesc p T).Pairwise
        (fun a b => b.2 < a.2 ∨ (a.2 = b.2 ∧ a.1 < b.1)) := by
  intro T
  induction T with
  | nil =>
    intro _ _
    simp [insertSorted]
  | cons b T ih =>
    intro hT hroot
    rw [List.pairwise_cons] at hT
    simp only [insertSorted]
    split
    · rename_i hle
      have hpb : b.2 ≤ p.2 := by
        simpa [UnionFind.bySizeDesc] using hle
      refine List.Pairwise.cons ?_ (List.Pairwise.cons hT.1 hT.2)
      intro c hc
      rcases List.mem_cons.mp hc with rfl | hc
      · rcases Nat.lt_or_ge c.2 p.2 with h | h
        · exact Or.inl h
        · exact Or.inr ⟨by omega, hroot c (List.mem_cons_self c T)⟩
      · have hc2 : c.2 ≤ b.2 := by
          rcases hT.1 c hc with h | h
          · omega
          · omega
        rcases Nat.lt_or_ge c.2 p.2 with h | h
        · exact Or.inl h
        · exact Or.inr ⟨by omega, hroot c (List.mem_cons_of_mem b hc)⟩
    · rename_i hle
      have hbp : p.2 < b.2 := by
        simp only [UnionFind.bySizeDesc, decide_eq_true_eq] at hle
        omega
      refine List.Pairwise.cons ?_
        (ih hT.2 fun c hc => hroot c (List.mem_cons_of_mem b hc))
      intro c hc
      rcases mem_insertSorted.mp hc with h | hc
      · subst h
        exact Or.inl hbp
      · exact hT.1 c hc

theorem pySort_bySizeDesc_pairwise :
    ∀ l : List (Nat × Nat), l.Pairwise (fun a b => a.1 < b.1) →
      (pySort UnionFind.bySizeDesc l).Pairwise
        (fun a b => b.2 < a.2 ∨ (a.2 = b.2 ∧ a.1 < b.1)) := by
  intro l
  induction l with
  | nil =>
    intro _
    simp [pySort]
  | cons p l ih =>
    intro hl
    rw [List.pairwise_cons] at hl
    simp only [pySort]
    refine insertSorted_bySizeDesc_pairwise p (pySort UnionFind.bySizeDesc l)
      (ih hl.2) ?_
    intro b hb
    exact hl.1 b (mem_pySort.mp hb)

/-- **C9** (confirmed).  For every non-empty forest and every `n ≥ 1`,
`largest_components(n)` returns the components sorted by strictly
non-increasing size with ties broken by ascending root index, truncated to
`n` entries; when `n` is at least the number of components it returns all of
them (a permutation of the full `component_sizes` list) without error. -/
theorem claim_C9 (uf : UnionFind) (n : Nat) (_hne : 0 < uf.parent.length)
    (_hn : 1 ≤ n) :
    (uf.get_largest_components n).Pairwise
      (fun a b => b.2 < a.2 ∨ (a.2 = b.2 ∧ a.1 < b.1)) ∧
    (uf.get_largest_components n).length =
      min n (uf.get_component_sizes).length ∧
    ((uf.get_component_sizes).length ≤ n →
      (uf.get_largest_components n).Perm uf.get_component_sizes) := by
  have hsorted := pySort_bySizeDesc_pairwise _ (gcs_roots_ascending uf)
  refine ⟨?_, ?_, ?_⟩
  · exact List.Pairwise.sublist (List.take_sublist _ _) hsorted
  · unfold UnionFind.get_largest_components
    rw [List.length_take, (pySort_perm UnionFind.bySizeDesc _).length_eq]
  · intro hle
    unfold UnionFind.get_largest_components
    rw [List.take_of_length_le
      (by rw [(pySort_perm UnionFind.bySizeDesc _).length_eq]; exact hle)]
    exact pySort_perm UnionFind.bySizeDesc _

/-- Witness for C9 at the concrete forest `UnionFind(4)` after `union(2, 3)`
with `n = 5` larger than the number of components. -/
theorem claim_C9_witness :
    (((UnionFind.init 4).union 2 3).1.get_largest_components 5).Pairwise
      (fun a b => b.2 < a.2 ∨ (a.2 = b.2 ∧ a.1 < b.1)) ∧
    (((UnionFind.init 4).union 2 3).1.get_largest_components 5).length =
      min 5 (((UnionFind.init 4).union 2 3).1.get_component_sizes).length ∧
    (((UnionFind.init 4).union 2 3).1.get_largest_components 5).Perm
      ((UnionFind.init 4).union 2 3).1.get_component_sizes := by
  have h := claim_C9 (((UnionFind.init 4).union 2 3).1) 5 (by decide) (by decide)
  exact ⟨h.1, h.2.1, h.2.2 (by decide)⟩
